import Mathlib

/-!
# S25FLx serial-flash driver: bus-level model of `S25FLx.cpp`

The driver talks to the chip through three Arduino primitives only:
`digitalWrite(cs, LOW/HIGH)` and `SPI.transfer(byte)`.  The model records every
call to them, in program order, in a trace.  The chip is a stream of response
bytes: `miso n` is the byte returned by the `n`-th `SPI.transfer` call.

Conventions of the embedding
* `unsigned long`, `unsigned` and `int` are 32 bits wide; unsigned arithmetic
  wraps modulo `2^32`, and `int` loop counters (which stay non-negative) are compared
  after conversion to `unsigned long`, as the C++ usual arithmetic conversions do.
  Where an `int` would pass `2^31 - 1` (lengths of 2 GiB and more) the model keeps
  counting modulo `2^32`.
* `byte` values are reduced modulo `256`; the argument of `SPI.transfer` is a `uint8_t`,
  so the value put on the wire is the argument modulo `256`.
* The caller's buffer `uint8_t *array` is a function from index to byte.
* `Serial` debug printing and the `millis()`/`prev` log throttle touch neither the
  bus nor the chip-select pin and decide no branch that does; they are left out of
  the trace.
* `waitforit` may spin forever on a chip that stays busy, and `read_info` in its
  wiring check, so they take a budget of loop iterations and return `none` when it is
  exhausted; an operation that calls them passes its budget on.
-/

namespace S25FLx

/-! ## Control bytes (the `#define`s at the top of the file) -/

def WREN : Nat := 0x06
def RDSR : Nat := 0x05
def WRSR : Nat := 0x01
def READ : Nat := 0x03
def PP : Nat := 0x02
def SE : Nat := 0x20
def BE : Nat := 0x20
def CE : Nat := 0xc7
def RDID : Nat := 0x9F

/-- Modulus of `unsigned long` arithmetic. -/
def W32 : Nat := 4294967296

/-- Unsigned 32-bit addition. -/
def uadd (a b : Nat) : Nat := (a + b) % W32

/-- Unsigned 32-bit subtraction (wraps below zero). -/
def usub (a b : Nat) : Nat := (a % W32 + W32 - b % W32) % W32

/-- Unsigned 32-bit multiplication. -/
def umul (a b : Nat) : Nat := (a * b) % W32

/-! ## Bus events and state -/

/-- One call to a hardware primitive. -/
inductive Event where
  /-- The call `digitalWrite(cs, level)`; `false` is LOW (selected), `true` is HIGH. -/
  | cs (level : Bool)
  /-- The call `SPI.transfer(mosi)` which returned `miso`. -/
  | xfer (mosi miso : Nat)
  deriving DecidableEq, Repr

/-- Everything observable so far: the events in program order and the number of
`SPI.transfer` calls made (the index of the next chip response). -/
structure Bus where
  trace : List Event
  clock : Nat
  deriving DecidableEq, Repr

/-- The call `digitalWrite(cs, level)`. -/
def digitalWrite (level : Bool) (b : Bus) : Bus :=
  { b with trace := b.trace ++ [Event.cs level] }

/-- The call `SPI.transfer(data)`: sends `data` as a byte, returns the chip's byte. -/
def transfer (miso : Nat → Nat) (data : Nat) (b : Bus) : Nat × Bus :=
  (miso b.clock,
   { trace := b.trace ++ [Event.xfer (data % 256) (miso b.clock)], clock := b.clock + 1 })

/-! ## Status / ready gate -/

/-- Source `flash::stat`: read and return the status register. -/
def stat (miso : Nat → Nat) (b : Bus) : Nat × Bus :=
  let b := digitalWrite false b
  let b := (transfer miso RDSR b).2
  let r := transfer miso 0 b
  let s := r.1
  let b := digitalWrite true r.2
  (s, b)

/-- The `while ((s & B0000001) == B00000001) { ...; s = stat(); }` loop of
`flash::waitforit`, with a budget of further polls. -/
def waitLoop (miso : Nat → Nat) : Nat → Nat → Bus → Option Bus
  | 0, s, b => if s &&& 1 = 1 then none else some b
  | fuel + 1, s, b =>
    if s &&& 1 = 1 then waitLoop miso fuel (stat miso b).1 (stat miso b).2 else some b

/-- Source `flash::waitforit`. -/
def waitforit (miso : Nat → Nat) (fuel : Nat) (b : Bus) : Option Bus :=
  let r := stat miso b
  waitLoop miso fuel r.1 r.2

/-- Source `flash::write_enable`. -/
def write_enable (miso : Nat → Nat) (fuel : Nat) (b : Bus) : Option Bus :=
  let b := digitalWrite false b
  let b := (transfer miso WREN b).2
  let b := digitalWrite true b
  waitforit miso fuel b

/-! ## Erase operations -/

/-- Source `flash::erase_4k`. -/
def erase_4k (miso : Nat → Nat) (fuel : Nat) (loc : Nat) (b : Bus) : Option Bus :=
  (waitforit miso fuel b).bind fun b =>
  (write_enable miso fuel b).bind fun b =>
  let b := digitalWrite false b
  let b := (transfer miso 0x20 b).2
  let b := (transfer miso (loc >>> 16) b).2
  let b := (transfer miso (loc >>> 8) b).2
  let b := (transfer miso (loc &&& 0xFF) b).2
  let b := digitalWrite true b
  waitforit miso fuel b

/-- Source `flash::erase_64k`. -/
def erase_64k (miso : Nat → Nat) (fuel : Nat) (loc : Nat) (b : Bus) : Option Bus :=
  (waitforit miso fuel b).bind fun b =>
  (write_enable miso fuel b).bind fun b =>
  let b := digitalWrite false b
  let b := (transfer miso 0x20 b).2
  let b := (transfer miso (loc >>> 16) b).2
  let b := (transfer miso (loc >>> 8) b).2
  let b := (transfer miso (loc &&& 0xFF) b).2
  let b := digitalWrite true b
  waitforit miso fuel b

/-- Source `flash::erase_all`. -/
def erase_all (miso : Nat → Nat) (fuel : Nat) (b : Bus) : Option Bus :=
  (waitforit miso fuel b).bind fun b =>
  (write_enable miso fuel b).bind fun b =>
  let b := digitalWrite false b
  let b := (transfer miso CE b).2
  let b := digitalWrite true b
  waitforit miso fuel b

/-! ## Read -/

/-- The loop `for (int i = 0; i < length + 1; i++) array[i] = SPI.transfer(0);` of
`flash::read`: `n` remaining iterations, next index `i`. -/
def readLoop (miso : Nat → Nat) : Nat → Nat → (Nat → Nat) → Bus → (Nat → Nat) × Bus
  | 0, _, array, b => (array, b)
  | n + 1, i, array, b =>
    let r := transfer miso 0 b
    readLoop miso n (i + 1) (Function.update array i r.1) r.2

/-- Source `flash::read`.  Returns the buffer after the call and the bus. -/
def read (miso : Nat → Nat) (loc : Nat) (array : Nat → Nat) (length : Nat) (b : Bus) :
    (Nat → Nat) × Bus :=
  let b := digitalWrite false b
  let b := (transfer miso READ b).2
  let b := (transfer miso (loc >>> 16) b).2
  let b := (transfer miso (loc >>> 8) b).2
  let b := (transfer miso (loc &&& 0xff) b).2
  let r := readLoop miso (uadd length 1) 0 array b
  (r.1, digitalWrite true r.2)

/-! ## Page program -/

/-- A data loop `for (i = lo; i < hi; i++) SPI.transfer(array[i]);`:
`n` remaining iterations, next index `i`. -/
def sendLoop (miso : Nat → Nat) (array : Nat → Nat) : Nat → Nat → Bus → Bus
  | 0, _, b => b
  | n + 1, i, b => sendLoop miso array n (i + 1) (transfer miso (array i) b).2

/-- The local variables of the long-write loop that live across iterations. -/
structure WVars where
  locb : Nat
  length1 : Nat
  array_count : Nat
  first_length : Nat
  deriving DecidableEq, Repr

/-- The loop `for (int i = 0; i < (reps + 2); i++) { ... }` of the `length > 255` branch
of `flash::write`.  The first argument bounds the number of iterations still allowed
(each iteration increases `i`, so `reps + 2` is always enough). -/
def writeLoop (miso : Nat → Nat) (fuel : Nat) (loc : Nat) (array : Nat → Nat)
    (reps remainer0 : Nat) : Nat → Nat → WVars → Bus → Option Bus
  | 0, i, _, b => if i < uadd reps 2 then none else some b
  | n + 1, i, v, b =>
    if i < uadd reps 2 then
      -- if (i == 0) { ... }
      let length1a := usub 256 (v.locb &&& 0xff)
      let i1 := if i = 0 then (if length1a = 0 then i + 1 else i) else i
      let v1 : WVars :=
        if i = 0 then
          { v with length1 := length1a, first_length := length1a, array_count := 0 }
        else v
      -- if (i > 0 && i < (reps + 1)) { ... }
      let v2 : WVars :=
        if 0 < i1 ∧ i1 < uadd reps 1 then
          { v1 with
            locb := uadd (uadd v1.first_length loc) (umul 256 (i1 - 1))
            array_count := uadd v1.first_length (umul 256 (i1 - 1))
            length1 := 255 }
        else v1
      -- if (i == (reps + 1)) { ... }
      let v3 : WVars :=
        if i1 = uadd reps 1 then
          { v2 with
            locb := uadd v2.locb 256
            array_count := uadd v2.array_count 256
            length1 := remainer0 }
        else v2
      if i1 = uadd reps 1 ∧ remainer0 = 0 then
        some b -- break
      else
        (write_enable miso fuel b).bind fun b =>
        (waitforit miso fuel b).bind fun b =>
        let b := digitalWrite false b
        let b := (transfer miso PP b).2
        let b := (transfer miso (v3.locb >>> 16) b).2
        let b := (transfer miso (v3.locb >>> 8) b).2
        let b := (transfer miso (v3.locb &&& 0xff) b).2
        let hi := uadd (uadd v3.length1 v3.array_count) 1
        let b := sendLoop miso array (hi - v3.array_count) v3.array_count b
        let b := digitalWrite true b
        (waitforit miso fuel b).bind fun b =>
        writeLoop miso fuel loc array reps remainer0 n (i1 + 1) v3 b
    else some b

/-- Source `flash::write`, the `if (length > 255) { ... }` block. -/
def writeLong (miso : Nat → Nat) (fuel : Nat) (loc : Nat) (array : Nat → Nat)
    (length : Nat) (b : Bus) : Option Bus :=
  let reps := length >>> 8
  let remainer0 := usub length (umul 256 reps)
  let locb := loc
  -- length1, array_count and first_length are declared without a value and
  -- assigned in the iteration i == 0 before any use
  writeLoop miso fuel loc array reps remainer0 (reps + 2) 0
    { locb := locb, length1 := 0, array_count := 0, first_length := 0 } b

/-- Source `flash::write`, the `if (length <= 255) { ... }` block. -/
def writeShort (miso : Nat → Nat) (fuel : Nat) (loc : Nat) (array : Nat → Nat)
    (length : Nat) (b : Bus) : Option Bus :=
  if (loc &&& 0xff) ≠ 0 ∨ (loc &&& 0xff) < length then
    let remainer := (loc &&& 0xff) % 256
    let length1 := (256 - remainer) % 256
    -- `byte length2 = length - length1;` is computed here and never used
    let page1_loc := loc
    let page2_loc := uadd loc length1
    (write_enable miso fuel b).bind fun b =>
    (waitforit miso fuel b).bind fun b =>
    let b := digitalWrite false b
    let b := (transfer miso PP b).2
    let b := (transfer miso (page1_loc >>> 16) b).2
    let b := (transfer miso (page1_loc >>> 8) b).2
    let b := (transfer miso (page1_loc &&& 0xff) b).2
    let b := sendLoop miso array length1 0 b
    let b := digitalWrite true b
    (waitforit miso fuel b).bind fun b =>
    (write_enable miso fuel b).bind fun b =>
    (waitforit miso fuel b).bind fun b =>
    let b := digitalWrite false b
    let b := (transfer miso PP b).2
    let b := (transfer miso (page2_loc >>> 16) b).2
    let b := (transfer miso (page2_loc >>> 8) b).2
    let b := (transfer miso (page2_loc &&& 0xff) b).2
    let b := sendLoop miso array (uadd length 1 - length1) length1 b
    let b := digitalWrite true b
    waitforit miso fuel b
  else
    (write_enable miso fuel b).bind fun b =>
    (waitforit miso fuel b).bind fun b =>
    let b := digitalWrite false b
    let b := (transfer miso PP b).2
    let b := (transfer miso (loc >>> 16) b).2
    let b := (transfer miso (loc >>> 8) b).2
    let b := (transfer miso (loc &&& 0xff) b).2
    let b := sendLoop miso array (uadd length 1) 0 b
    let b := digitalWrite true b
    waitforit miso fuel b

/-- Source `flash::write`: the two `if` blocks in sequence (`length` is not modified,
so exactly one of them runs). -/
def write (miso : Nat → Nat) (fuel : Nat) (loc : Nat) (array : Nat → Nat)
    (length : Nat) (b : Bus) : Option Bus :=
  (if length > 255 then writeLong miso fuel loc array length b else some b).bind fun b =>
  if length ≤ 255 then writeShort miso fuel loc array length b else some b

/-! ## Status-register write -/

/-- Source `flash::write_reg`. -/
def write_reg (miso : Nat → Nat) (w : Nat) (b : Bus) : Bus :=
  let b := digitalWrite false b
  let b := (transfer miso WRSR b).2
  let b := (transfer miso w b).2
  digitalWrite true b

/-! ## Identification read -/

/-- The loop `while (c == 0) { prln_debug("Cannot read S25FL. Check wiring"); }` of
`flash::read_info`: its body prints and never reads `c` again, so it ends only when it
is not entered.  The budget counts iterations. -/
def infoLoop : Nat → Nat → Option Unit
  | 0, c => if c = 0 then none else some ()
  | fuel + 1, c => if c = 0 then infoLoop fuel c else some ()

/-- Source `flash::read_info`: the identification transaction, the wiring check on the
capacity byte `c`, the prints (left out), and a final `waitforit`. -/
def read_info (miso : Nat → Nat) (fuel : Nat) (b : Bus) : Option Bus :=
  let b := digitalWrite false b
  let b := (transfer miso 0x9F b).2
  let rm := transfer miso 0 b
  let rt := transfer miso 0 rm.2
  let rc := transfer miso 0 rt.2
  let c := rc.1
  let b := digitalWrite true rc.2
  (infoLoop fuel c).bind fun _ => waitforit miso fuel b

/-! ## Reading a trace back as bus transactions -/

/-- Splits a trace into transactions: for each chip-select window (LOW ... HIGH) the
list of bytes sent in it.  The first argument is the window currently open, if any. -/
def txAux : Option (List Nat) → List Event → List (List Nat)
  | _, [] => []
  | _, Event.cs false :: es => txAux (some []) es
  | some acc, Event.cs true :: es => acc :: txAux none es
  | none, Event.cs true :: es => txAux none es
  | some acc, Event.xfer o _ :: es => txAux (some (acc ++ [o])) es
  | none, Event.xfer _ _ :: es => txAux none es

/-- The transactions of a trace, each as the list of bytes sent (opcode first). -/
def transactions (t : List Event) : List (List Nat) := txAux none t

/-- The page-program commands of a trace: the transactions whose opcode is `PP`. -/
def ppCommands (t : List Event) : List (List Nat) :=
  (transactions t).filter fun c => c.head? = some PP

/-- The flash address a command carries in its three address bytes. -/
def cmdAddr (c : List Nat) : Nat :=
  c.getD 1 0 * 65536 + c.getD 2 0 * 256 + c.getD 3 0

/-- The data bytes of an addressed command: everything after opcode and address. -/
def cmdData (c : List Nat) : List Nat := c.drop 4

/-- The empty bus: nothing emitted yet. -/
def Bus.init : Bus := { trace := [], clock := 0 }

/-- A chip that always answers `0` (never busy). -/
def idle : Nat → Nat := fun _ => 0

/-! ## Shapes of traces -/

/-- The events of one `stat()` call whose two transfers returned `m` and `s`. -/
def poll (m s : Nat) : List Event :=
  [Event.cs false, Event.xfer RDSR m, Event.xfer 0 s, Event.cs true]

/-- The events of `n` consecutive `stat()` calls made from transfer number `c` on. -/
def polls (miso : Nat → Nat) (c : Nat) : Nat → List Event
  | 0 => []
  | n + 1 => poll (miso c) (miso (c + 1)) ++ polls miso (c + 2) n

/-- From transfer number `c` on, the chip reports busy (bit 0 set) in its next `k`
status bytes and ready (bit 0 clear) in the one after. -/
def ReadyAfter (miso : Nat → Nat) (c k : Nat) : Prop :=
  (∀ j, j < k → miso (c + 2 * j + 1) % 2 = 1) ∧ miso (c + 2 * k + 1) % 2 = 0

/-- Whenever polled, the chip eventually reports not-busy. -/
def Responsive (miso : Nat → Nat) : Prop :=
  ∀ c, ∃ k, miso (c + 2 * k + 1) % 2 = 0

/-- The trace of a completed wait: status reads that saw busy, then one that saw ready. -/
inductive IsWait : List Event → Prop
  | ready (m s : Nat) (h : s % 2 = 0) : IsWait (poll m s)
  | busy (m s : Nat) (l : List Event) (h : s % 2 = 1) (hl : IsWait l) :
      IsWait (poll m s ++ l)

/-- The trace of one transaction sending `bytes`: select, one transfer per byte
(whatever the chip answers), deselect. -/
def IsFrame (bytes : List Nat) (l : List Event) : Prop :=
  ∃ ms : List Nat, ms.length = bytes.length ∧
    l = Event.cs false :: (List.zipWith Event.xfer bytes ms ++ [Event.cs true])

/-- An operation started on bus `b` returns for every large enough poll budget, always
with the same final bus, and what it appended to the trace satisfies `P`. -/
def Emits (f : Nat → Option Bus) (b : Bus) (P : List Event → Prop) : Prop :=
  ∃ N b1 l, (∀ fuel, N ≤ fuel → f fuel = some b1) ∧ b1.trace = b.trace ++ l ∧ P l

/-- The three address bytes as the source sends them: `loc >> 16`, `loc >> 8`,
`loc & 0xff`, each cut to a byte by `SPI.transfer`. -/
def addrBytes (loc : Nat) : List Nat :=
  [(loc >>> 16) % 256, (loc >>> 8) % 256, (loc &&& 0xff) % 256]

/-- The bytes a data loop over buffer indices `start, ..., start + n - 1` puts on the wire. -/
def chunkData (array : Nat → Nat) (start n : Nat) : List Nat :=
  (List.range' start n).map fun i => array i % 256

/-- One page-program command as issued: flash address, index of the first buffer byte
clocked out, number of data bytes clocked out. -/
structure Chunk where
  addr : Nat
  start : Nat
  count : Nat
  deriving DecidableEq, Repr

/-- The bytes of the page-program transaction for a chunk. -/
def chunkBytes (array : Nat → Nat) (c : Chunk) : List Nat :=
  PP :: (addrBytes c.addr ++ chunkData array c.start c.count)

/-- The trace of one page-program step: write-enable transaction, wait (inside
`write_enable`), wait, the page-program transaction, wait. -/
def IsPPStep (array : Nat → Nat) (c : Chunk) (l : List Event) : Prop :=
  ∃ e w1 w2 fr w3, l = e ++ (w1 ++ (w2 ++ (fr ++ w3))) ∧ IsFrame [WREN] e ∧ IsWait w1 ∧
    IsWait w2 ∧ IsFrame (chunkBytes array c) fr ∧ IsWait w3

/-- The trace of a sequence of page-program steps, one per chunk, in order. -/
inductive IsSteps (array : Nat → Nat) : List Chunk → List Event → Prop
  | nil : IsSteps array [] []
  | cons (c : Chunk) (cs : List Chunk) (l1 l2 : List Event) (h1 : IsPPStep array c l1)
      (h2 : IsSteps array cs l2) : IsSteps array (c :: cs) (l1 ++ l2)

/-- The chip's answers to `n` consecutive transfers from transfer number `c` on. -/
def misoRange (miso : Nat → Nat) (c n : Nat) : List Nat :=
  (List.range' c n).map miso

/-- The page-program transaction as `flash::write` emits it in each of its three
copies: select, `PP`, three address bytes of `addr`, a data loop of `n` iterations
from buffer index `start`, deselect. -/
def ppFrame (miso : Nat → Nat) (array : Nat → Nat) (addr n start : Nat) (b : Bus) : Bus :=
  let b := digitalWrite false b
  let b := (transfer miso PP b).2
  let b := (transfer miso (addr >>> 16) b).2
  let b := (transfer miso (addr >>> 8) b).2
  let b := (transfer miso (addr &&& 0xff) b).2
  let b := sendLoop miso array n start b
  digitalWrite true b

/-- The page-program commands issued by a short write (`length <= 255`), in order. -/
def shortPlan (loc length : Nat) : List Chunk :=
  if loc % 256 ≠ 0 ∨ loc % 256 < length then
    [{ addr := loc, start := 0, count := (256 - loc % 256) % 256 },
     { addr := (loc + (256 - loc % 256) % 256) % W32, start := (256 - loc % 256) % 256,
       count := length + 1 - (256 - loc % 256) % 256 }]
  else
    [{ addr := loc, start := 0, count := length + 1 }]

/-- The full-page chunk of step `j + 1` of the loop of a long write, where
`first = 256 - loc % 256`. -/
def midChunk (loc first j : Nat) : Chunk :=
  { addr := (first + loc + 256 * j) % W32, start := first + 256 * j, count := 256 }

/-- The full-page commands of a long write: steps `i = 1, ..., reps` of its loop. -/
def middlePlan (loc first reps : Nat) : List Chunk :=
  (List.range reps).map (midChunk loc first)

/-- The last command of a long write, present when `length % 256` is not zero. -/
def finalPlan (loc first length : Nat) : List Chunk :=
  if length % 256 = 0 then []
  else
    [{ addr := (first + loc + 256 * (length / 256)) % W32,
       start := first + 256 * (length / 256), count := length % 256 + 1 }]

/-- The page-program commands issued by a long write (`length > 255`), in order. -/
def longPlan (loc length : Nat) : List Chunk :=
  { addr := loc, start := 0, count := 256 - loc % 256 + 1 } ::
    (middlePlan loc (256 - loc % 256) (length / 256) ++
      finalPlan loc (256 - loc % 256) length)

/-- The page-program commands `flash::write` issues, in order: for each, the flash
address sent, the first buffer index and the number of data bytes clocked out. -/
def writePlan (loc length : Nat) : List Chunk :=
  if 255 < length then longPlan loc length else shortPlan loc length

/-- The page-program commands read from a trace with a window possibly open. -/
def ppAux (o : Option (List Nat)) (t : List Event) : List (List Nat) :=
  (txAux o t).filter fun c => c.head? = some PP

/-- The trace of a guarded command: wait, write-enable transaction, wait, the command's
transaction sending `bytes`, wait. -/
def IsGuarded (bytes : List Nat) (l : List Event) : Prop :=
  ∃ w1 e w2 fr w3, l = w1 ++ (e ++ (w2 ++ (fr ++ w3))) ∧ IsWait w1 ∧ IsFrame [WREN] e ∧
    IsWait w2 ∧ IsFrame bytes fr ∧ IsWait w3

/-- What `flash::read` appends to the trace when its loop makes `n` transfers, the first
transfer of the call being transfer number `c`. -/
def readEvents (miso : Nat → Nat) (loc n c : Nat) : List Event :=
  Event.cs false :: Event.xfer READ (miso c) ::
    Event.xfer ((loc >>> 16) % 256) (miso (c + 1)) ::
    Event.xfer ((loc >>> 8) % 256) (miso (c + 2)) ::
    Event.xfer (loc % 256) (miso (c + 3)) ::
    ((List.range' (c + 4) n).map (fun k => Event.xfer 0 (miso k)) ++
      [Event.cs true])

/-- A chip that reports busy in its first two status bytes and ready afterwards. -/
def busyTwice : Nat → Nat := fun n => if n < 4 then 1 else 0

/-- The value of the loop counter after the `if (i == 0)` block of the loop body. -/
def loopI (i : Nat) (v : WVars) : Nat :=
  if i = 0 then (if usub 256 (v.locb &&& 0xff) = 0 then i + 1 else i) else i

/-- The loop variables after the three `if` blocks of the loop body. -/
def loopV (loc reps remainer0 i : Nat) (v : WVars) : WVars :=
  let v1 : WVars :=
    if i = 0 then
      { v with length1 := usub 256 (v.locb &&& 0xff),
               first_length := usub 256 (v.locb &&& 0xff), array_count := 0 }
    else v
  let v2 : WVars :=
    if 0 < loopI i v ∧ loopI i v < uadd reps 1 then
      { v1 with
        locb := uadd (uadd v1.first_length loc) (umul 256 (loopI i v - 1))
        array_count := uadd v1.first_length (umul 256 (loopI i v - 1))
        length1 := 255 }
    else v1
  if loopI i v = uadd reps 1 then
    { v2 with
      locb := uadd v2.locb 256
      array_count := uadd v2.array_count 256
      length1 := remainer0 }
  else v2

/-- The chunk programmed by an iteration of the long-write loop entered with counter `i`
and variables `v`: `locb`, `array_count` and the trip count of the data loop, as they
stand after the three `if` blocks. -/
def loopChunk (loc reps remainer0 i : Nat) (v : WVars) : Chunk :=
  { addr := (loopV loc reps remainer0 i v).locb,
    start := (loopV loc reps remainer0 i v).array_count,
    count := uadd (uadd (loopV loc reps remainer0 i v).length1
        (loopV loc reps remainer0 i v).array_count) 1 -
      (loopV loc reps remainer0 i v).array_count }

/-- The chunks programmed by the long-write loop when run from counter `i` and
variables `v` for at most `n` iterations. -/
def loopPlan (loc reps remainer0 : Nat) : Nat → Nat → WVars → List Chunk
  | 0, _, _ => []
  | n + 1, i, v =>
    if i < uadd reps 2 then
      if loopI i v = uadd reps 1 ∧ remainer0 = 0 then []
      else
        loopChunk loc reps remainer0 i v ::
          loopPlan loc reps remainer0 n (loopI i v + 1) (loopV loc reps remainer0 i v)
    else []

/-- The page-program commands of `write(loc, array, length)` read off the code's own
variables, for every `loc` and `length`: those of the loop when `length > 255`, those
of the short branch otherwise. -/
def codePlan (loc length : Nat) : List Chunk :=
  if 255 < length then
    loopPlan loc (length >>> 8) (usub length (umul 256 (length >>> 8))) (length >>> 8 + 2) 0
      { locb := loc, length1 := 0, array_count := 0, first_length := 0 }
  else shortPlan loc length

/-- Summary of the page-program commands of a trace: for each, the address carried
and the number of data bytes. -/
def ppSummary (t : List Event) : List (Nat × Nat) :=
  (ppCommands t).map fun c => (cmdAddr c, (cmdData c).length)

/-- All data bytes of the page-program commands of a trace, in issue order. -/
def ppData (t : List Event) : List Nat :=
  ((ppCommands t).map cmdData).flatten

/-- The opcodes the driver sends as first byte of a transaction. -/
def opcodes : List Nat := [WREN, RDSR, WRSR, READ, PP, SE, BE, CE, RDID]

/-- Chip-select discipline of a trace.  The first argument is `none` while the chip is
deselected and `some n` while it is selected and `n` bytes have been transferred since
the select.  Selecting twice, deselecting or transferring while deselected, deselecting
before any byte, a first byte that is no opcode, and ending selected are all refused. -/
def csOk : Option Nat → List Event → Bool
  | none, [] => true
  | some _, [] => false
  | none, Event.cs false :: es => csOk (some 0) es
  | some _, Event.cs false :: _ => false
  | none, Event.cs true :: _ => false
  | some n, Event.cs true :: es => decide (0 < n) && csOk none es
  | none, Event.xfer _ _ :: _ => false
  | some n, Event.xfer o _ :: es =>
    (decide (0 < n) || decide (o ∈ opcodes)) && csOk (some (n + 1)) es

/-- Bus `b1` is bus `b` followed by events that keep the chip-select discipline, from
deselected to deselected. -/
def Disciplined (b b1 : Bus) : Prop :=
  ∃ l, b1.trace = b.trace ++ l ∧ csOk none l = true

/-! ## Basic facts about the primitives -/

@[simp] theorem digitalWrite_trace (l : Bool) (b : Bus) :
    (digitalWrite l b).trace = b.trace ++ [Event.cs l] := rfl

@[simp] theorem digitalWrite_clock (l : Bool) (b : Bus) :
    (digitalWrite l b).clock = b.clock := rfl

@[simp] theorem transfer_trace (miso : Nat → Nat) (d : Nat) (b : Bus) :
    (transfer miso d b).2.trace = b.trace ++ [Event.xfer (d % 256) (miso b.clock)] := rfl

@[simp] theorem transfer_clock (miso : Nat → Nat) (d : Nat) (b : Bus) :
    (transfer miso d b).2.clock = b.clock + 1 := rfl

@[simp] theorem transfer_fst (miso : Nat → Nat) (d : Nat) (b : Bus) :
    (transfer miso d b).1 = miso b.clock := rfl

theorem stat_fst (miso : Nat → Nat) (b : Bus) : (stat miso b).1 = miso (b.clock + 1) := rfl

theorem stat_snd (miso : Nat → Nat) (b : Bus) :
    (stat miso b).2 =
      { trace := b.trace ++ poll (miso b.clock) (miso (b.clock + 1)), clock := b.clock + 2 } := by
  simp [stat, digitalWrite, transfer, poll, RDSR]

theorem and_one_eq_one_iff (s : Nat) : s &&& 1 = 1 ↔ s % 2 = 1 := by
  rw [Nat.and_one_is_mod]

theorem readyAfter_succ (miso : Nat → Nat) (c k : Nat) (hr : ReadyAfter miso c (k + 1)) :
    miso (c + 1) % 2 = 1 ∧ ReadyAfter miso (c + 2) k := by
  refine ⟨by simpa using hr.1 0 (Nat.succ_pos k), fun j hj => ?_, ?_⟩
  · have e : c + 2 + 2 * j + 1 = c + 2 * (j + 1) + 1 := by ring
    rw [e]; exact hr.1 (j + 1) (Nat.succ_lt_succ hj)
  · have e : c + 2 + 2 * k + 1 = c + 2 * (k + 1) + 1 := by ring
    rw [e]; exact hr.2

theorem readyAfter_zero (miso : Nat → Nat) (c : Nat) (hr : ReadyAfter miso c 0) :
    miso (c + 1) % 2 = 0 := by
  simpa using hr.2

/-- The wait loop entered with a busy status `s`, on a chip whose following status
bytes are busy `k` times and then ready: it makes exactly `k + 1` further polls when
the budget allows and has not returned otherwise. -/
theorem waitLoop_busy (miso : Nat → Nat) :
    ∀ (k fuel s : Nat) (b : Bus), s % 2 = 1 → ReadyAfter miso b.clock k →
      waitLoop miso fuel s b =
        if k < fuel then
          some { trace := b.trace ++ polls miso b.clock (k + 1), clock := b.clock + 2 * (k + 1) }
        else none := by
  intro k
  induction k with
  | zero =>
    intro fuel s b hs hr
    have h0 := readyAfter_zero miso _ hr
    cases fuel with
    | zero => simp [waitLoop, and_one_eq_one_iff, hs]
    | succ f =>
      cases f <;>
        simp [waitLoop, and_one_eq_one_iff, hs, stat_fst, h0, stat_snd, polls]
  | succ k ih =>
    intro fuel s b hs hr
    obtain ⟨h1, hr'⟩ := readyAfter_succ miso _ _ hr
    cases fuel with
    | zero => simp [waitLoop, and_one_eq_one_iff, hs]
    | succ f =>
      simp only [waitLoop, and_one_eq_one_iff, hs, if_true]
      rw [ih f _ _ (by rw [stat_fst]; exact h1) (by rw [stat_snd]; exact hr')]
      by_cases hf : k < f
      · rw [if_pos hf, if_pos (Nat.succ_lt_succ hf)]
        simp only [stat_snd, polls, List.append_assoc, Option.some.injEq,
          Bus.mk.injEq, true_and]
        ring
      · rw [if_neg hf, if_neg (fun h => hf (Nat.lt_of_succ_lt_succ h))]

/-- Closed form of `waitforit` on a chip that is busy for `k` status reads and then
ready: with a budget of at least `k` extra polls it returns after exactly `k + 1`
status reads, and with less it has not returned. -/
theorem waitforit_eq (miso : Nat → Nat) (k fuel : Nat) (b : Bus)
    (hr : ReadyAfter miso b.clock k) :
    waitforit miso fuel b =
      if k ≤ fuel then
        some { trace := b.trace ++ polls miso b.clock (k + 1), clock := b.clock + 2 * (k + 1) }
      else none := by
  unfold waitforit
  cases k with
  | zero =>
    have h0 := readyAfter_zero miso _ hr
    cases fuel <;>
      simp [waitLoop, and_one_eq_one_iff, stat_fst, h0, stat_snd, polls]
  | succ k =>
    obtain ⟨h1, hr'⟩ := readyAfter_succ miso _ _ hr
    show waitLoop miso fuel (stat miso b).1 (stat miso b).2 = _
    rw [waitLoop_busy miso k fuel _ _ (by rw [stat_fst]; exact h1) (by rw [stat_snd]; exact hr')]
    by_cases hf : k < fuel
    · rw [if_pos hf, if_pos (Nat.succ_le_of_lt hf)]
      simp only [stat_snd, polls, List.append_assoc, Option.some.injEq,
        Bus.mk.injEq, true_and]
      ring
    · rw [if_neg hf, if_neg (fun h => hf (Nat.lt_of_succ_le h))]

/-! ## Waiting on a responsive chip -/

theorem isWait_polls (miso : Nat → Nat) :
    ∀ (k c : Nat), ReadyAfter miso c k → IsWait (polls miso c (k + 1))
  | 0, c, hr => by
    simpa [polls] using IsWait.ready (miso c) (miso (c + 1)) (readyAfter_zero miso c hr)
  | k + 1, c, hr => by
    obtain ⟨h1, hr'⟩ := readyAfter_succ miso c k hr
    exact IsWait.busy _ _ _ h1 (isWait_polls miso k (c + 2) hr')

theorem readyAfter_of_responsive {miso : Nat → Nat} (h : Responsive miso) (c : Nat) :
    ∃ k, ReadyAfter miso c k := by
  classical
  have hex := h c
  refine ⟨Nat.find hex, fun j hj => ?_, Nat.find_spec hex⟩
  have hmin := Nat.find_min hex hj
  rcases Nat.mod_two_eq_zero_or_one (miso (c + 2 * j + 1)) with h0 | h1
  · exact absurd h0 hmin
  · exact h1

theorem emits_waitforit {miso : Nat → Nat} (h : Responsive miso) (b : Bus) :
    Emits (fun fuel => waitforit miso fuel b) b IsWait := by
  obtain ⟨k, hr⟩ := readyAfter_of_responsive h b.clock
  refine ⟨k, { trace := b.trace ++ polls miso b.clock (k + 1), clock := b.clock + 2 * (k + 1) },
    polls miso b.clock (k + 1), fun fuel hf => ?_, rfl, isWait_polls miso k _ hr⟩
  show waitforit miso fuel b = _
  rw [waitforit_eq miso k fuel b hr, if_pos hf]

theorem emits_bind {f : Nat → Option Bus} {g : Nat → Bus → Option Bus} {b : Bus}
    {P Q : List Event → Prop} (hf : Emits f b P)
    (hg : ∀ b1, Emits (fun fuel => g fuel b1) b1 Q) :
    Emits (fun fuel => (f fuel).bind (g fuel)) b
      (fun l => ∃ l1 l2, l = l1 ++ l2 ∧ P l1 ∧ Q l2) := by
  obtain ⟨N1, b1, l1, h1, e1, p1⟩ := hf
  obtain ⟨N2, b2, l2, h2, e2, p2⟩ := hg b1
  refine ⟨max N1 N2, b2, l1 ++ l2, fun fuel hfu => ?_, ?_, l1, l2, rfl, p1, p2⟩
  · show (f fuel).bind (g fuel) = some b2
    rw [h1 fuel (le_trans (le_max_left _ _) hfu)]
    exact h2 fuel (le_trans (le_max_right _ _) hfu)
  · rw [e2, e1, List.append_assoc]

theorem emits_after {g : Nat → Option Bus} {b b1 : Bus} {pre : List Event}
    {Q : List Event → Prop} (hp : b1.trace = b.trace ++ pre) (hg : Emits g b1 Q) :
    Emits g b (fun l => ∃ l2, l = pre ++ l2 ∧ Q l2) := by
  obtain ⟨N, b2, l2, h2, e2, p2⟩ := hg
  exact ⟨N, b2, pre ++ l2, h2, by rw [e2, hp, List.append_assoc], l2, rfl, p2⟩

theorem emits_mono {f : Nat → Option Bus} {b : Bus} {P Q : List Event → Prop}
    (h : Emits f b P) (hpq : ∀ l, P l → Q l) : Emits f b Q := by
  obtain ⟨N, b1, l, h1, e1, p1⟩ := h
  exact ⟨N, b1, l, h1, e1, hpq l p1⟩

theorem emits_done (b : Bus) : Emits (fun _ => some b) b (fun l => l = []) :=
  ⟨0, b, [], fun _ _ => rfl, by simp, rfl⟩

theorem isFrame_wren (m : Nat) :
    IsFrame [WREN] [Event.cs false, Event.xfer WREN m, Event.cs true] :=
  ⟨[m], rfl, rfl⟩

theorem emits_write_enable {miso : Nat → Nat} (h : Responsive miso) (b : Bus) :
    Emits (fun fuel => write_enable miso fuel b) b
      (fun l => ∃ e w, l = e ++ w ∧ IsFrame [WREN] e ∧ IsWait w) := by
  have hp : (digitalWrite true (transfer miso WREN (digitalWrite false b)).2).trace =
      b.trace ++ [Event.cs false, Event.xfer WREN (miso b.clock), Event.cs true] := by
    simp [WREN]
  refine emits_mono (emits_after hp (emits_waitforit h _)) ?_
  rintro l ⟨w, rfl, hw⟩
  exact ⟨_, w, rfl, isFrame_wren _, hw⟩

/-! ## The page-program step -/

theorem sendLoop_eq (miso : Nat → Nat) (array : Nat → Nat) :
    ∀ (n i : Nat) (b : Bus), sendLoop miso array n i b =
      { trace := b.trace ++ List.zipWith Event.xfer (chunkData array i n)
          (misoRange miso b.clock n),
        clock := b.clock + n }
  | 0, i, b => by simp [sendLoop, chunkData, misoRange]
  | n + 1, i, b => by
    rw [sendLoop, sendLoop_eq miso array n (i + 1)]
    simp only [transfer_trace, transfer_clock, chunkData, misoRange, List.range'_succ,
      List.map_cons, List.zipWith_cons_cons, List.append_assoc, List.singleton_append,
      Bus.mk.injEq, true_and]
    omega

theorem ppFrame_trace (miso : Nat → Nat) (array : Nat → Nat) (addr n start : Nat) (b : Bus) :
    ∃ fr, (ppFrame miso array addr n start b).trace = b.trace ++ fr ∧
      IsFrame (chunkBytes array { addr := addr, start := start, count := n }) fr := by
  refine ⟨Event.cs false :: (List.zipWith Event.xfer
      (chunkBytes array { addr := addr, start := start, count := n })
      (miso b.clock :: miso (b.clock + 1) :: miso (b.clock + 2) :: miso (b.clock + 3) ::
        misoRange miso (b.clock + 4) n) ++ [Event.cs true]), ?_, ⟨_, ?_, rfl⟩⟩
  · simp [ppFrame, sendLoop_eq, chunkBytes, addrBytes, PP]
  · simp [chunkBytes, addrBytes, chunkData, misoRange]

theorem emits_ppStep {miso : Nat → Nat} (h : Responsive miso) (array : Nat → Nat)
    (addr n start : Nat) (k : Nat → Bus → Option Bus) (Q : List Event → Prop) (b : Bus)
    (hk : ∀ b1, Emits (fun fuel => k fuel b1) b1 Q) :
    Emits (fun fuel => (write_enable miso fuel b).bind fun b =>
        (waitforit miso fuel b).bind fun b =>
        (waitforit miso fuel (ppFrame miso array addr n start b)).bind (k fuel)) b
      (fun l => ∃ l1 l2, l = l1 ++ l2 ∧
        IsPPStep array { addr := addr, start := start, count := n } l1 ∧ Q l2) := by
  have key := emits_bind (g := fun fuel b => (waitforit miso fuel b).bind fun b =>
        (waitforit miso fuel (ppFrame miso array addr n start b)).bind (k fuel))
      (emits_write_enable h b) (fun b1 =>
        emits_bind (g := fun fuel b =>
            (waitforit miso fuel (ppFrame miso array addr n start b)).bind (k fuel))
          (Q := fun l => ∃ fr,
            IsFrame (chunkBytes array { addr := addr, start := start, count := n }) fr ∧
              ∃ l2, l = fr ++ l2 ∧ ∃ l1 l3, l2 = l1 ++ l3 ∧ IsWait l1 ∧ Q l3)
          (emits_waitforit h b1) (fun b2 => by
            obtain ⟨fr, hfr, hF⟩ := ppFrame_trace miso array addr n start b2
            exact emits_mono (emits_after hfr (emits_bind (emits_waitforit h _) hk))
              (fun l hl => ⟨fr, hF, hl⟩)))
  refine emits_mono key ?_
  rintro l ⟨l1, l2, rfl, ⟨e, w1, rfl, he, hw1⟩, w2, l3, rfl, hw2, fr, hF, l4, rfl, w3, l5, rfl,
    hw3, hq⟩
  exact ⟨e ++ (w1 ++ (w2 ++ (fr ++ w3))), l5, by simp [List.append_assoc],
    ⟨e, w1, w2, fr, w3, rfl, he, hw1, hw2, hF, hw3⟩, hq⟩

theorem emits_ppStep_last {miso : Nat → Nat} (h : Responsive miso) (array : Nat → Nat)
    (addr n start : Nat) (b : Bus) :
    Emits (fun fuel => (write_enable miso fuel b).bind fun b =>
        (waitforit miso fuel b).bind fun b =>
        waitforit miso fuel (ppFrame miso array addr n start b)) b
      (IsPPStep array { addr := addr, start := start, count := n }) := by
  obtain ⟨N, b1, l, hN, e, l1, l2, rfl, hs, rfl⟩ :=
    emits_ppStep h array addr n start (fun _ b => some b) (fun l => l = []) b
      (fun b1 => emits_done b1)
  refine ⟨N, b1, l1, fun fuel hf => ?_, by simpa using e, hs⟩
  have := hN fuel hf
  simpa using this

theorem and_255 (x : Nat) : x &&& 0xff = x % 256 :=
  Nat.and_pow_two_sub_one_eq_mod x 8

/-! ## Short writes -/

theorem emits_writeShort {miso : Nat → Nat} (h : Responsive miso) (loc : Nat)
    (array : Nat → Nat) (length : Nat) (b : Bus) (hlen : length ≤ 255) :
    Emits (fun fuel => writeShort miso fuel loc array length b) b
      (IsSteps array (shortPlan loc length)) := by
  have hu : uadd length 1 = length + 1 := by
    unfold uadd W32; omega
  by_cases hc : loc % 256 ≠ 0 ∨ loc % 256 < length
  · have hc' : (loc &&& 0xff) ≠ 0 ∨ (loc &&& 0xff) < length := by rwa [and_255]
    have key := emits_ppStep h array loc ((256 - (loc &&& 0xff) % 256) % 256) 0
      (fun fuel b => (write_enable miso fuel b).bind fun b =>
        (waitforit miso fuel b).bind fun b =>
        waitforit miso fuel (ppFrame miso array (uadd loc ((256 - (loc &&& 0xff) % 256) % 256))
          (uadd length 1 - (256 - (loc &&& 0xff) % 256) % 256)
          ((256 - (loc &&& 0xff) % 256) % 256) b))
      _ b (fun b1 => emits_ppStep_last h array _ _ _ b1)
    have hfun : (fun fuel => writeShort miso fuel loc array length b) = _ :=
      funext fun fuel => by
        unfold writeShort
        rw [if_pos hc']
    rw [hfun]
    refine emits_mono key ?_
    rintro l ⟨l1, l2, rfl, h1, h2⟩
    have := IsSteps.cons _ _ l1 _ h1 (IsSteps.cons _ [] l2 [] h2 IsSteps.nil)
    rw [hu] at this
    simpa [shortPlan, hc, and_255, uadd] using this
  · have hc' : ¬ ((loc &&& 0xff) ≠ 0 ∨ (loc &&& 0xff) < length) := by rwa [and_255]
    have key := emits_ppStep_last h array loc (uadd length 1) 0 b
    have hfun : (fun fuel => writeShort miso fuel loc array length b) = _ :=
      funext fun fuel => by
        unfold writeShort
        rw [if_neg hc']
    rw [hfun]
    refine emits_mono key ?_
    intro l h1
    have := IsSteps.cons _ [] l [] h1 IsSteps.nil
    simpa [shortPlan, hc, hu] using this



/-! ## Long writes -/

theorem writeLoop_exit (miso : Nat → Nat) (fuel loc : Nat) (array : Nat → Nat)
    (reps rem : Nat) (n i : Nat) (v : WVars) (b : Bus) (hi : ¬ i < uadd reps 2) :
    writeLoop miso fuel loc array reps rem n i v b = some b := by
  cases n <;> simp [writeLoop, hi]

theorem writeLoop_mid (miso : Nat → Nat) (fuel loc : Nat) (array : Nat → Nat)
    (reps rem : Nat) (n j : Nat) (v : WVars) (b : Bus) (hr : reps + 2 < W32) (hj : j < reps) :
    writeLoop miso fuel loc array reps rem (n + 1) (j + 1) v b =
      (write_enable miso fuel b).bind fun b =>
        (waitforit miso fuel b).bind fun b =>
        (waitforit miso fuel (ppFrame miso array
          (uadd (uadd v.first_length loc) (umul 256 j))
          (uadd (uadd 255 (uadd v.first_length (umul 256 j))) 1 -
            uadd v.first_length (umul 256 j))
          (uadd v.first_length (umul 256 j)) b)).bind fun b =>
        writeLoop miso fuel loc array reps rem n (j + 2)
          { v with
            locb := uadd (uadd v.first_length loc) (umul 256 j)
            array_count := uadd v.first_length (umul 256 j)
            length1 := 255 } b := by
  have h2 : uadd reps 2 = reps + 2 := by unfold uadd; exact Nat.mod_eq_of_lt hr
  have h1 : uadd reps 1 = reps + 1 := by unfold uadd; exact Nat.mod_eq_of_lt (by omega)
  rw [writeLoop]
  have c1 : j + 1 < uadd reps 2 := by omega
  have c2 : 0 < j + 1 ∧ j + 1 < uadd reps 1 := by omega
  have c3 : ¬ (j + 1 = uadd reps 1) := by omega
  have c4 : ¬ (j + 1 = uadd reps 1 ∧ rem = 0) := fun h => c3 h.1
  simp only [if_pos c1, Nat.succ_ne_zero, if_false, if_pos c2, if_neg c3, if_neg c4,
    Nat.add_sub_cancel]
  rfl

theorem writeLoop_last_skip (miso : Nat → Nat) (fuel loc : Nat) (array : Nat → Nat)
    (reps rem : Nat) (n : Nat) (v : WVars) (b : Bus) (hr : reps + 2 < W32) (hrem : rem = 0) :
    writeLoop miso fuel loc array reps rem (n + 1) (reps + 1) v b = some b := by
  have h2 : uadd reps 2 = reps + 2 := by unfold uadd; exact Nat.mod_eq_of_lt hr
  have h1 : uadd reps 1 = reps + 1 := by unfold uadd; exact Nat.mod_eq_of_lt (by omega)
  rw [writeLoop]
  have c1 : reps + 1 < uadd reps 2 := by omega
  have c4 : reps + 1 = uadd reps 1 ∧ rem = 0 := ⟨h1.symm, hrem⟩
  simp only [if_pos c1, Nat.succ_ne_zero, if_false, if_pos c4]

theorem writeLoop_last (miso : Nat → Nat) (fuel loc : Nat) (array : Nat → Nat)
    (reps rem : Nat) (n : Nat) (v : WVars) (b : Bus) (hr : reps + 2 < W32) (hrem : rem ≠ 0) :
    writeLoop miso fuel loc array reps rem (n + 1) (reps + 1) v b =
      (write_enable miso fuel b).bind fun b =>
        (waitforit miso fuel b).bind fun b =>
        (waitforit miso fuel (ppFrame miso array (uadd v.locb 256)
          (uadd (uadd rem (uadd v.array_count 256)) 1 - uadd v.array_count 256)
          (uadd v.array_count 256) b)).bind fun b =>
        writeLoop miso fuel loc array reps rem n (reps + 2)
          { v with
            locb := uadd v.locb 256
            array_count := uadd v.array_count 256
            length1 := rem } b := by
  have h2 : uadd reps 2 = reps + 2 := by unfold uadd; exact Nat.mod_eq_of_lt hr
  have h1 : uadd reps 1 = reps + 1 := by unfold uadd; exact Nat.mod_eq_of_lt (by omega)
  rw [writeLoop]
  have c1 : reps + 1 < uadd reps 2 := by omega
  have c2 : ¬ (0 < reps + 1 ∧ reps + 1 < uadd reps 1) := by omega
  have c3 : reps + 1 = uadd reps 1 := h1.symm
  have c4 : ¬ (reps + 1 = uadd reps 1 ∧ rem = 0) := fun h => hrem h.2
  simp only [if_pos c1, Nat.succ_ne_zero, if_false, if_neg c2, if_pos c3, if_neg c4]
  rfl

theorem writeLoop_first (miso : Nat → Nat) (fuel loc : Nat) (array : Nat → Nat)
    (reps rem : Nat) (n : Nat) (v : WVars) (b : Bus) (hr : reps + 2 < W32) (hreps : 1 ≤ reps) :
    writeLoop miso fuel loc array reps rem (n + 1) 0 v b =
      (write_enable miso fuel b).bind fun b =>
        (waitforit miso fuel b).bind fun b =>
        (waitforit miso fuel (ppFrame miso array v.locb
          (uadd (uadd (usub 256 (v.locb &&& 0xff)) 0) 1 - 0) 0 b)).bind fun b =>
        writeLoop miso fuel loc array reps rem n 1
          { v with
            length1 := usub 256 (v.locb &&& 0xff)
            first_length := usub 256 (v.locb &&& 0xff)
            array_count := 0 } b := by
  have h2 : uadd reps 2 = reps + 2 := by unfold uadd; exact Nat.mod_eq_of_lt hr
  have h1 : uadd reps 1 = reps + 1 := by unfold uadd; exact Nat.mod_eq_of_lt (by omega)
  have hne : usub 256 (v.locb &&& 0xff) ≠ 0 := by
    rw [and_255]; unfold usub W32; omega
  rw [writeLoop]
  have c1 : 0 < uadd reps 2 := by omega
  have c2 : ¬ (0 < 0 ∧ 0 < uadd reps 1) := by omega
  have c3 : ¬ (0 = uadd reps 1) := by omega
  have c4 : ¬ (0 = uadd reps 1 ∧ rem = 0) := fun h => c3 h.1
  simp only [if_pos c1, if_true, if_neg hne, if_neg c2, if_neg c3, if_neg c4]
  rfl

theorem emits_writeLoop_tail {miso : Nat → Nat} (h : Responsive miso) (loc : Nat)
    (array : Nat → Nat) (length first : Nat) (hlen : 255 < length)
    (hL : length + 257 < W32) (hf : first ≤ 256) :
    ∀ (n j : Nat) (v : WVars) (b : Bus), j ≤ length / 256 → length / 256 + 1 ≤ n + j →
      v.first_length = first →
      (1 ≤ j → v.locb = (first + loc + 256 * (j - 1)) % W32 ∧
        v.array_count = first + 256 * (j - 1)) →
      Emits (fun fuel =>
          writeLoop miso fuel loc array (length / 256) (length % 256) n (j + 1) v b) b
        (IsSteps array ((List.range' j (length / 256 - j)).map (midChunk loc first) ++
          finalPlan loc first length)) := by
  have hr : length / 256 + 2 < W32 := by unfold W32 at *; omega
  intro n
  induction n with
  | zero => intro j v b hj hn; omega
  | succ n ih =>
    intro j v b hj hn hv hinv
    rcases Nat.lt_or_ge j (length / 256) with hlt | hge
    · rw [funext fun fuel =>
        writeLoop_mid miso fuel loc array (length / 256) (length % 256) n j v b hr hlt]
      have key := emits_ppStep h array (uadd (uadd v.first_length loc) (umul 256 j))
        (uadd (uadd 255 (uadd v.first_length (umul 256 j))) 1 -
          uadd v.first_length (umul 256 j))
        (uadd v.first_length (umul 256 j))
        (fun fuel b => writeLoop miso fuel loc array (length / 256) (length % 256) n (j + 2)
          { v with
            locb := uadd (uadd v.first_length loc) (umul 256 j)
            array_count := uadd v.first_length (umul 256 j)
            length1 := 255 } b) _ b
        (fun b1 => ih (j + 1) _ b1 hlt (by omega) hv (fun _ => by
          refine ⟨?_, ?_⟩
          · show uadd (uadd v.first_length loc) (umul 256 j) = _
            rw [hv]; unfold uadd umul W32; simp only [Nat.add_sub_cancel]; omega
          · show uadd v.first_length (umul 256 j) = _
            rw [hv]; unfold uadd umul; unfold W32 at *; simp only [Nat.add_sub_cancel]; omega))
      refine emits_mono key ?_
      rintro l ⟨l1, l2, rfl, h1, h2⟩
      have hrange : List.range' j (length / 256 - j) =
          j :: List.range' (j + 1) (length / 256 - (j + 1)) := by
        have : length / 256 - j = (length / 256 - (j + 1)) + 1 := by omega
        rw [this, List.range'_succ]
      have hc : ({ addr := uadd (uadd v.first_length loc) (umul 256 j),
                   start := uadd v.first_length (umul 256 j),
                   count := uadd (uadd 255 (uadd v.first_length (umul 256 j))) 1 -
                     uadd v.first_length (umul 256 j) } : Chunk) = midChunk loc first j := by
        rw [hv]; unfold midChunk uadd umul; unfold W32 at *
        simp only [Chunk.mk.injEq]; omega
      rw [hrange, List.map_cons, List.cons_append, ← hc]
      exact IsSteps.cons _ _ l1 l2 h1 h2
    · have hj' : j = length / 256 := le_antisymm hj hge
      subst hj'
      have hnil : List.range' (length / 256) (length / 256 - length / 256) = [] := by simp
      rw [hnil, List.map_nil, List.nil_append]
      by_cases hrem : length % 256 = 0
      · rw [funext fun fuel =>
          writeLoop_last_skip miso fuel loc array (length / 256) (length % 256) n v b hr hrem]
        refine emits_mono (emits_done b) ?_
        rintro l rfl
        simp only [finalPlan, hrem, if_true]
        exact IsSteps.nil
      · rw [funext fun fuel =>
          writeLoop_last miso fuel loc array (length / 256) (length % 256) n v b hr hrem]
        have key := emits_ppStep h array (uadd v.locb 256)
          (uadd (uadd (length % 256) (uadd v.array_count 256)) 1 - uadd v.array_count 256)
          (uadd v.array_count 256)
          (fun fuel b => writeLoop miso fuel loc array (length / 256) (length % 256) n
            (length / 256 + 2)
            { v with
              locb := uadd v.locb 256
              array_count := uadd v.array_count 256
              length1 := length % 256 } b) (fun l => l = []) b
          (fun b1 => by
            rw [funext fun fuel => writeLoop_exit miso fuel loc array (length / 256)
              (length % 256) n (length / 256 + 2) _ b1 (by unfold uadd; unfold W32 at *; omega)]
            exact emits_done b1)
        refine emits_mono key ?_
        rintro l ⟨l1, l2, rfl, h1, rfl⟩
        have hpos : 1 ≤ length / 256 := by omega
        obtain ⟨hlocb, hac⟩ := hinv hpos
        have hc : ({ addr := uadd v.locb 256, start := uadd v.array_count 256,
                     count := uadd (uadd (length % 256) (uadd v.array_count 256)) 1 -
                       uadd v.array_count 256 } : Chunk) =
            { addr := (first + loc + 256 * (length / 256)) % W32,
              start := first + 256 * (length / 256), count := length % 256 + 1 } := by
          rw [hlocb, hac]; unfold uadd; unfold W32 at *
          simp only [Chunk.mk.injEq]; omega
        simp only [finalPlan, hrem, if_false]
        rw [← hc]
        exact IsSteps.cons _ [] l1 [] h1 IsSteps.nil

theorem usub_first (loc : Nat) : usub 256 (loc &&& 0xff) = 256 - loc % 256 := by
  rw [and_255]; unfold usub W32; omega

theorem emits_writeLong {miso : Nat → Nat} (h : Responsive miso) (loc : Nat)
    (array : Nat → Nat) (length : Nat) (b : Bus) (hlen : 255 < length)
    (hL : length + 257 < W32) :
    Emits (fun fuel => writeLong miso fuel loc array length b) b
      (IsSteps array (longPlan loc length)) := by
  have hr : length / 256 + 2 < W32 := by unfold W32 at *; omega
  have hreps : length >>> 8 = length / 256 := Nat.shiftRight_eq_div_pow length 8
  have hrem : usub length (umul 256 (length / 256)) = length % 256 := by
    unfold usub umul; unfold W32 at *; omega
  have hfun : (fun fuel => writeLong miso fuel loc array length b) =
      fun fuel => writeLoop miso fuel loc array (length / 256) (length % 256)
        (length / 256 + 1 + 1) 0
        { locb := loc, length1 := 0, array_count := 0, first_length := 0 } b :=
    funext fun fuel => by
      unfold writeLong
      simp only [hreps, hrem]
  rw [hfun, funext fun fuel => writeLoop_first miso fuel loc array (length / 256)
    (length % 256) (length / 256 + 1) _ b hr (by omega)]
  have key := emits_ppStep h array loc
    (uadd (uadd (usub 256 (loc &&& 0xff)) 0) 1 - 0) 0
    (fun fuel b => writeLoop miso fuel loc array (length / 256) (length % 256)
      (length / 256 + 1) 1
      { locb := loc, length1 := usub 256 (loc &&& 0xff),
        array_count := 0, first_length := usub 256 (loc &&& 0xff) } b) _ b
    (fun b1 => emits_writeLoop_tail h loc array length (256 - loc % 256) hlen hL (by omega)
      (length / 256 + 1) 0 _ b1 (Nat.zero_le _) (by omega) (usub_first loc)
      (fun h0 => absurd h0 (by decide)))
  refine emits_mono key ?_
  rintro l ⟨l1, l2, rfl, h1, h2⟩
  have hc : ({ addr := loc, start := 0,
               count := uadd (uadd (usub 256 (loc &&& 0xff)) 0) 1 - 0 } : Chunk) =
      { addr := loc, start := 0, count := 256 - loc % 256 + 1 } := by
    rw [usub_first]; unfold uadd W32
    simp only [Chunk.mk.injEq, true_and]
    omega
  rw [hc] at h1
  have hrange : List.range' 0 (length / 256 - 0) = List.range (length / 256) := by
    rw [Nat.sub_zero, List.range_eq_range']
  rw [hrange] at h2
  exact IsSteps.cons _ _ l1 l2 h1 h2

/-- Every completed `write` on a responsive chip emits exactly the page-program
steps of `writePlan`, one after the other, and nothing else. -/
theorem emits_write {miso : Nat → Nat} (h : Responsive miso) (loc : Nat)
    (array : Nat → Nat) (length : Nat) (b : Bus) (hL : length + 257 < W32) :
    Emits (fun fuel => write miso fuel loc array length b) b
      (IsSteps array (writePlan loc length)) := by
  by_cases hlen : 255 < length
  · have hfun : (fun fuel => write miso fuel loc array length b) =
        fun fuel => writeLong miso fuel loc array length b :=
      funext fun fuel => by
        have hn : ¬ length ≤ 255 := by omega
        simp only [write, gt_iff_lt, if_pos hlen, if_neg hn, Option.bind_some]
    rw [hfun]
    simpa [writePlan, hlen] using emits_writeLong h loc array length b hlen hL
  · have hfun : (fun fuel => write miso fuel loc array length b) =
        fun fuel => writeShort miso fuel loc array length b :=
      funext fun fuel => by
        have hn : length ≤ 255 := by omega
        simp only [write, gt_iff_lt, if_neg hlen, if_pos hn, Option.some_bind]
    rw [hfun]
    simpa [writePlan, hlen] using emits_writeShort h loc array length b (by omega)

/-! ## Long writes of any length: every step is guarded -/

theorem writeLoop_succ (miso : Nat → Nat) (fuel loc : Nat) (array : Nat → Nat)
    (reps rem : Nat) (n i : Nat) (v : WVars) (b : Bus) :
    writeLoop miso fuel loc array reps rem (n + 1) i v b =
      if i < uadd reps 2 then
        if loopI i v = uadd reps 1 ∧ rem = 0 then some b
        else
          (write_enable miso fuel b).bind fun b =>
          (waitforit miso fuel b).bind fun b =>
          (waitforit miso fuel (ppFrame miso array (loopV loc reps rem i v).locb
            (uadd (uadd (loopV loc reps rem i v).length1
                (loopV loc reps rem i v).array_count) 1 -
              (loopV loc reps rem i v).array_count)
            (loopV loc reps rem i v).array_count b)).bind fun b =>
          writeLoop miso fuel loc array reps rem n (loopI i v + 1)
            (loopV loc reps rem i v) b
      else some b := by
  rw [writeLoop]
  rfl

theorem le_loopI (i : Nat) (v : WVars) : i ≤ loopI i v := by
  unfold loopI
  split
  · split <;> omega
  · exact le_refl i

theorem emits_writeLoop_steps {miso : Nat → Nat} (h : Responsive miso) (loc : Nat)
    (array : Nat → Nat) (reps rem : Nat) :
    ∀ (n i : Nat) (v : WVars) (b : Bus), uadd reps 2 ≤ n + i →
      Emits (fun fuel => writeLoop miso fuel loc array reps rem n i v b) b
        (IsSteps array (loopPlan loc reps rem n i v)) := by
  intro n
  induction n with
  | zero =>
    intro i v b hn
    rw [funext fun fuel => writeLoop_exit miso fuel loc array reps rem 0 i v b (by omega)]
    exact emits_mono (emits_done b) (fun l hl => hl ▸ IsSteps.nil)
  | succ n ih =>
    intro i v b hn
    rw [funext fun fuel => writeLoop_succ miso fuel loc array reps rem n i v b]
    by_cases hi : i < uadd reps 2
    · by_cases hbrk : loopI i v = uadd reps 1 ∧ rem = 0
      · simp only [loopPlan, if_pos hi, if_pos hbrk]
        exact emits_mono (emits_done b) (fun l hl => hl ▸ IsSteps.nil)
      · simp only [loopPlan, if_pos hi, if_neg hbrk]
        have key := emits_ppStep h array (loopV loc reps rem i v).locb
          (uadd (uadd (loopV loc reps rem i v).length1
              (loopV loc reps rem i v).array_count) 1 -
            (loopV loc reps rem i v).array_count)
          (loopV loc reps rem i v).array_count
          (fun fuel b => writeLoop miso fuel loc array reps rem n (loopI i v + 1)
            (loopV loc reps rem i v) b) _ b
          (fun b1 => ih (loopI i v + 1) _ b1 (by have := le_loopI i v; omega))
        refine emits_mono key ?_
        rintro l ⟨l1, l2, rfl, h1, h2⟩
        exact IsSteps.cons _ _ l1 l2 h1 h2
    · simp only [loopPlan, if_neg hi]
      exact emits_mono (emits_done b) (fun l hl => hl ▸ IsSteps.nil)

/-- Every completed `write`, for every address and length, emits exactly the
page-program steps of `codePlan`, one after the other, and nothing else. -/
theorem emits_write_steps {miso : Nat → Nat} (h : Responsive miso) (loc : Nat)
    (array : Nat → Nat) (length : Nat) (b : Bus) :
    Emits (fun fuel => write miso fuel loc array length b) b
      (IsSteps array (codePlan loc length)) := by
  by_cases hlen : 255 < length
  · have hfun : (fun fuel => write miso fuel loc array length b) =
        fun fuel => writeLong miso fuel loc array length b :=
      funext fun fuel => by
        have hn : ¬ length ≤ 255 := by omega
        simp only [write, gt_iff_lt, if_pos hlen, if_neg hn, Option.bind_some]
    rw [hfun]
    simp only [codePlan, if_pos hlen]
    exact emits_writeLoop_steps h loc array _ _ _ 0 _ b
      (by unfold uadd; exact le_trans (Nat.mod_le _ _) (le_refl _))
  · have hfun : (fun fuel => write miso fuel loc array length b) =
        fun fuel => writeShort miso fuel loc array length b :=
      funext fun fuel => by
        have hn : length ≤ 255 := by omega
        simp only [write, gt_iff_lt, if_neg hlen, if_pos hn, Option.some_bind]
    rw [hfun]
    simp only [codePlan, if_neg hlen]
    exact emits_writeShort h loc array length b (by omega)

/-! ## Transactions of shaped traces -/

theorem txAux_xfers : ∀ (bytes ms acc : List Nat) (rest : List Event),
    ms.length = bytes.length →
    txAux (some acc) (List.zipWith Event.xfer bytes ms ++ Event.cs true :: rest) =
      (acc ++ bytes) :: txAux none rest
  | [], ms, acc, rest, _ => by simp [txAux]
  | x :: bytes, [], acc, rest, h => by simp at h
  | x :: bytes, m :: ms, acc, rest, h => by
    have h' : ms.length = bytes.length := by simpa using h
    show txAux (some (acc ++ [x]))
      (List.zipWith Event.xfer bytes ms ++ Event.cs true :: rest) = _
    rw [txAux_xfers bytes ms (acc ++ [x]) rest h']
    simp

theorem txAux_frame {bytes : List Nat} {fr : List Event} (h : IsFrame bytes fr)
    (o : Option (List Nat)) (rest : List Event) :
    txAux o (fr ++ rest) = bytes :: txAux none rest := by
  obtain ⟨ms, hlen, rfl⟩ := h
  have := txAux_xfers bytes ms [] rest hlen
  cases o <;> simpa [txAux] using this

theorem isFrame_poll (m s : Nat) : IsFrame [RDSR, 0] (poll m s) :=
  ⟨[m, s], rfl, rfl⟩

theorem txAux_wait {w : List Event} (h : IsWait w) :
    ∀ (o : Option (List Nat)) (rest : List Event),
      ∃ n, txAux o (w ++ rest) = List.replicate (n + 1) [RDSR, 0] ++ txAux none rest := by
  induction h with
  | ready m s _ =>
    intro o rest
    exact ⟨0, by rw [txAux_frame (isFrame_poll m s)]; rfl⟩
  | busy m s l _ _ ih =>
    intro o rest
    obtain ⟨n, hn⟩ := ih none rest
    refine ⟨n + 1, ?_⟩
    rw [List.append_assoc, txAux_frame (isFrame_poll m s), hn]
    rfl

theorem ppAux_wait {w : List Event} (h : IsWait w) (o : Option (List Nat))
    (rest : List Event) : ppAux o (w ++ rest) = ppAux none rest := by
  obtain ⟨n, hn⟩ := txAux_wait h o rest
  unfold ppAux
  rw [hn, List.filter_append]
  have : (List.replicate (n + 1) [RDSR, 0]).filter (fun c => c.head? = some PP) = [] := by
    rw [List.filter_eq_nil_iff]
    intro a ha
    rw [List.eq_of_mem_replicate ha]
    decide
  rw [this, List.nil_append]

theorem ppAux_wren {e : List Event} (h : IsFrame [WREN] e) (o : Option (List Nat))
    (rest : List Event) : ppAux o (e ++ rest) = ppAux none rest := by
  unfold ppAux
  rw [txAux_frame h, List.filter_cons_of_neg (by decide)]

theorem ppAux_step {array : Nat → Nat} {c : Chunk} {l : List Event}
    (h : IsPPStep array c l) (o : Option (List Nat)) (rest : List Event) :
    ppAux o (l ++ rest) = chunkBytes array c :: ppAux none rest := by
  obtain ⟨e, w1, w2, fr, w3, rfl, he, hw1, hw2, hfr, hw3⟩ := h
  simp only [List.append_assoc]
  rw [ppAux_wren he, ppAux_wait hw1, ppAux_wait hw2]
  unfold ppAux
  rw [txAux_frame hfr, List.filter_cons_of_pos (by simp [chunkBytes])]
  exact congrArg _ (ppAux_wait hw3 none rest)

theorem ppAux_steps {array : Nat → Nat} {plan : List Chunk} {l : List Event}
    (h : IsSteps array plan l) (rest : List Event) :
    ppAux none (l ++ rest) = plan.map (chunkBytes array) ++ ppAux none rest := by
  induction h with
  | nil => rfl
  | cons c cs l1 l2 h1 _ ih =>
    rw [List.append_assoc, ppAux_step h1, ih]
    rfl

/-- The page-program commands of a trace made of page-program steps are the
transactions of its chunks, in order. -/
theorem ppCommands_steps {array : Nat → Nat} {plan : List Chunk} {l : List Event}
    (h : IsSteps array plan l) : ppCommands l = plan.map (chunkBytes array) := by
  have := ppAux_steps h []
  simpa [ppAux, ppCommands, transactions, txAux] using this

/-! ## Erase operations -/

theorem emits_guarded {miso : Nat → Nat} (h : Responsive miso) (p : Bus → Bus)
    (bytes : List Nat) (hp : ∀ b, ∃ fr, (p b).trace = b.trace ++ fr ∧ IsFrame bytes fr)
    (b : Bus) :
    Emits (fun fuel => (waitforit miso fuel b).bind fun b =>
        (write_enable miso fuel b).bind fun b => waitforit miso fuel (p b)) b
      (IsGuarded bytes) := by
  have key := emits_bind (g := fun fuel b =>
        (write_enable miso fuel b).bind fun b => waitforit miso fuel (p b))
      (emits_waitforit h b) (fun b1 =>
        emits_bind (g := fun fuel b => waitforit miso fuel (p b))
          (Q := fun l => ∃ fr, IsFrame bytes fr ∧ ∃ l2, l = fr ++ l2 ∧ IsWait l2)
          (emits_write_enable h b1) (fun b2 => by
            obtain ⟨fr, hfr, hF⟩ := hp b2
            exact emits_mono (emits_after hfr (emits_waitforit h _))
              (fun l hl => ⟨fr, hF, hl⟩)))
  refine emits_mono key ?_
  rintro l ⟨w1, l2, rfl, hw1, l3, l4, rfl, ⟨e, w2, rfl, he, hw2⟩, fr, hF, w3, rfl, hw3⟩
  exact ⟨w1, e, w2, fr, w3, by simp [List.append_assoc], hw1, he, hw2, hF, hw3⟩

theorem addr_frame (miso : Nat → Nat) (op loc : Nat) (b : Bus) (hop : op < 256) :
    ∃ fr, (digitalWrite true (transfer miso (loc &&& 0xFF) (transfer miso (loc >>> 8)
        (transfer miso (loc >>> 16) (transfer miso op (digitalWrite false b)).2).2).2).2).trace =
        b.trace ++ fr ∧ IsFrame (op :: addrBytes loc) fr := by
  refine ⟨Event.cs false :: (List.zipWith Event.xfer (op :: addrBytes loc)
      [miso b.clock, miso (b.clock + 1), miso (b.clock + 2), miso (b.clock + 3)] ++
        [Event.cs true]), ?_,
    ⟨[miso b.clock, miso (b.clock + 1), miso (b.clock + 2), miso (b.clock + 3)], rfl, rfl⟩⟩
  simp [addrBytes, Nat.mod_eq_of_lt hop]

theorem emits_erase_4k {miso : Nat → Nat} (h : Responsive miso) (loc : Nat) (b : Bus) :
    Emits (fun fuel => erase_4k miso fuel loc b) b (IsGuarded (SE :: addrBytes loc)) :=
  emits_guarded h _ _ (fun b => addr_frame miso 0x20 loc b (by decide)) b

theorem emits_erase_64k {miso : Nat → Nat} (h : Responsive miso) (loc : Nat) (b : Bus) :
    Emits (fun fuel => erase_64k miso fuel loc b) b (IsGuarded (BE :: addrBytes loc)) :=
  emits_guarded h _ _ (fun b => addr_frame miso 0x20 loc b (by decide)) b

theorem emits_erase_all {miso : Nat → Nat} (h : Responsive miso) (b : Bus) :
    Emits (fun fuel => erase_all miso fuel b) b (IsGuarded [CE]) :=
  emits_guarded h (fun b => digitalWrite true (transfer miso CE (digitalWrite false b)).2) [CE]
    (fun b => ⟨[Event.cs false, Event.xfer CE (miso b.clock), Event.cs true],
      by simp [CE], ⟨[miso b.clock], rfl, rfl⟩⟩) b

/-! ## Read -/

theorem readLoop_eq (miso : Nat → Nat) :
    ∀ (n i : Nat) (array : Nat → Nat) (b : Bus), readLoop miso n i array b =
      (fun j => if i ≤ j ∧ j < i + n then miso (b.clock + (j - i)) else array j,
       { trace := b.trace ++ (List.range' b.clock n).map (fun c => Event.xfer 0 (miso c)),
         clock := b.clock + n })
  | 0, i, array, b => by
    simp only [readLoop, List.range'_zero, List.map_nil, List.append_nil, Nat.add_zero]
    congr 1
    funext j
    rw [if_neg (by omega)]
  | n + 1, i, array, b => by
    rw [readLoop, readLoop_eq miso n (i + 1)]
    simp only [transfer_fst, transfer_trace, transfer_clock, List.range'_succ, List.map_cons,
      List.append_assoc, List.singleton_append, Nat.zero_mod, Prod.mk.injEq, Bus.mk.injEq,
      true_and]
    refine ⟨?_, by omega⟩
    funext j
    by_cases h1 : i + 1 ≤ j ∧ j < i + 1 + n
    · rw [if_pos h1, if_pos (by omega)]
      congr 1; omega
    · rw [if_neg h1]
      by_cases h2 : j = i
      · subst h2
        rw [Function.update_same, if_pos (by omega)]
        simp
      · rw [Function.update_noteq h2, if_neg (by omega)]

/-! ## Transactions of waits, guarded commands and reads -/

theorem transactions_polls (miso : Nat → Nat) :
    ∀ (n c : Nat) (rest : List Event),
      txAux none (polls miso c n ++ rest) = List.replicate n [RDSR, 0] ++ txAux none rest
  | 0, _, _ => rfl
  | n + 1, c, rest => by
    rw [polls, List.append_assoc, txAux_frame (isFrame_poll _ _),
      transactions_polls miso n (c + 2) rest]
    rfl

theorem transactions_guarded {bytes : List Nat} {l : List Event} (h : IsGuarded bytes l) :
    ∃ n1 n2 n3, transactions l =
      List.replicate (n1 + 1) [RDSR, 0] ++ ([WREN] ::
        (List.replicate (n2 + 1) [RDSR, 0] ++ (bytes :: List.replicate (n3 + 1) [RDSR, 0]))) := by
  obtain ⟨w1, e, w2, fr, w3, rfl, hw1, he, hw2, hfr, hw3⟩ := h
  obtain ⟨n1, h1⟩ := txAux_wait hw1 none (e ++ (w2 ++ (fr ++ w3)))
  obtain ⟨n2, h2⟩ := txAux_wait hw2 none (fr ++ w3)
  obtain ⟨n3, h3⟩ := txAux_wait hw3 none []
  refine ⟨n1, n2, n3, ?_⟩
  unfold transactions
  rw [h1, txAux_frame he, h2, txAux_frame hfr]
  rw [List.append_nil] at h3
  rw [h3]
  simp [txAux]

theorem xfer_zero_map (miso : Nat → Nat) :
    ∀ (n c : Nat), (List.range' c n).map (fun c => Event.xfer 0 (miso c)) =
      List.zipWith Event.xfer (List.replicate n 0) (misoRange miso c n)
  | 0, _ => rfl
  | n + 1, c => by
    simp only [misoRange, List.range'_succ, List.map_cons, List.replicate_succ,
      List.zipWith_cons_cons]
    exact congrArg _ (xfer_zero_map miso n (c + 1))

theorem read_eq (miso : Nat → Nat) (loc : Nat) (array : Nat → Nat) (length : Nat) (b : Bus) :
    read miso loc array length b =
      (fun j => if j < uadd length 1 then miso (b.clock + 4 + j) else array j,
       { trace := b.trace ++ readEvents miso loc (uadd length 1) b.clock,
         clock := b.clock + 4 + uadd length 1 }) := by
  unfold read
  simp only [readLoop_eq, digitalWrite_trace, digitalWrite_clock, transfer_trace,
    transfer_clock, Prod.mk.injEq]
  refine ⟨?_, ?_⟩
  · funext j
    by_cases hj : j < uadd length 1
    · rw [if_pos (by omega), if_pos hj]; rfl
    · rw [if_neg (by omega), if_neg hj]
  · simp [digitalWrite, readEvents, READ, and_255]

theorem isFrame_readEvents (miso : Nat → Nat) (loc n c : Nat) :
    IsFrame (READ :: (addrBytes loc ++ List.replicate n 0)) (readEvents miso loc n c) := by
  refine ⟨miso c :: miso (c + 1) :: miso (c + 2) :: miso (c + 3) ::
    misoRange miso (c + 4) n, by simp [addrBytes, misoRange], ?_⟩
  simp only [readEvents, xfer_zero_map, addrBytes, and_255, Nat.mod_mod, List.cons_append,
    List.nil_append, List.zipWith_cons_cons]

theorem transactions_readEvents (miso : Nat → Nat) (loc n c : Nat) :
    transactions (readEvents miso loc n c) = [READ :: (addrBytes loc ++ List.replicate n 0)] := by
  have := txAux_frame (isFrame_readEvents miso loc n c) none []
  simpa [transactions, txAux] using this

/-! ## The ready gate, read, address framing and the guarded commands -/

/-- C6: `waitforit` on a chip whose next `k` status bytes have bit 0 set and whose
`(k+1)`-th has it clear.  The status byte of the `j`-th `stat()` call is the answer to
its second transfer, `miso (b.clock + 2 * j + 1)`.  With a budget below `k` extra polls
`waitforit` has not returned; with any budget of at least `k` it returns after exactly
`k + 1` read-status transactions and nothing else; and a chip whose status bytes differ
only in bits 1..7 gets the same number of polls. -/
theorem waitforit_polls_until_ready (miso : Nat → Nat) (k : Nat) (b : Bus)
    (hbusy : ∀ j, j < k → miso (b.clock + 2 * j + 1) % 2 = 1)
    (hready : miso (b.clock + 2 * k + 1) % 2 = 0) :
    (∀ fuel, fuel < k → waitforit miso fuel b = none) ∧
    (∀ fuel, k ≤ fuel → waitforit miso fuel b =
      some { trace := b.trace ++ polls miso b.clock (k + 1),
             clock := b.clock + 2 * (k + 1) }) ∧
    transactions (polls miso b.clock (k + 1)) = List.replicate (k + 1) [RDSR, 0] ∧
    (∀ miso' : Nat → Nat, (∀ n, miso' n % 2 = miso n % 2) →
      ∀ fuel, (waitforit miso' fuel b).map Bus.clock =
        (waitforit miso fuel b).map Bus.clock) := by
  have hr : ReadyAfter miso b.clock k := ⟨hbusy, hready⟩
  refine ⟨fun fuel hf => ?_, fun fuel hf => ?_, ?_, fun miso' hm fuel => ?_⟩
  · rw [waitforit_eq miso k fuel b hr, if_neg (by omega)]
  · rw [waitforit_eq miso k fuel b hr, if_pos hf]
  · have := transactions_polls miso (k + 1) b.clock []
    simpa [transactions, txAux] using this
  · have hr' : ReadyAfter miso' b.clock k :=
      ⟨fun j hj => by rw [hm]; exact hbusy j hj, by rw [hm]; exact hready⟩
    rw [waitforit_eq miso k fuel b hr, waitforit_eq miso' k fuel b hr']
    by_cases hf : k ≤ fuel
    · simp [hf]
    · simp [hf]

/-- C6 on a chip whose first two status bytes are busy and whose third is ready: a
budget of one extra poll is not enough, a budget of two gives three status reads. -/
theorem waitforit_polls_until_ready_witness :
    waitforit busyTwice 1 Bus.init = none ∧
    waitforit busyTwice 2 Bus.init =
      some { trace := Bus.init.trace ++ polls busyTwice Bus.init.clock 3,
             clock := Bus.init.clock + 2 * 3 } :=
  ⟨(waitforit_polls_until_ready busyTwice 2 Bus.init (by decide) (by decide)).1 1 (by decide),
   (waitforit_polls_until_ready busyTwice 2 Bus.init (by decide) (by decide)).2.1 2
     (le_refl 2)⟩

/-- C7: `read(loc, array, length)`, when `length + 1` does not overflow, appends to the
trace exactly: chip-select low, opcode `0x03`, the three address bytes, `length + 1`
transfers of a zero byte, chip-select high.  The byte received by the `i`-th of these
transfers is stored at `array[i]` for `i = 0..length`, the rest of the buffer is left
alone, and what is appended is one transaction: no write-enable and no status read. -/
theorem read_transfers_length_plus_one (miso : Nat → Nat) (loc : Nat) (array : Nat → Nat)
    (length : Nat) (b : Bus) (hlen : length + 1 < W32) :
    (read miso loc array length b).2.trace =
      b.trace ++ (Event.cs false :: Event.xfer 0x03 (miso b.clock) ::
        Event.xfer ((loc >>> 16) % 256) (miso (b.clock + 1)) ::
        Event.xfer ((loc >>> 8) % 256) (miso (b.clock + 2)) ::
        Event.xfer (loc % 256) (miso (b.clock + 3)) ::
        ((List.range' (b.clock + 4) (length + 1)).map (fun k => Event.xfer 0 (miso k)) ++
          [Event.cs true])) ∧
    (∀ i, i ≤ length → (read miso loc array length b).1 i = miso (b.clock + 4 + i)) ∧
    (∀ i, length < i → (read miso loc array length b).1 i = array i) ∧
    (read miso loc array length b).2.trace =
      b.trace ++ readEvents miso loc (length + 1) b.clock ∧
    transactions (readEvents miso loc (length + 1) b.clock) =
      [0x03 :: (loc >>> 16) % 256 :: (loc >>> 8) % 256 :: loc % 256 ::
        List.replicate (length + 1) 0] := by
  have hu : uadd length 1 = length + 1 := Nat.mod_eq_of_lt hlen
  rw [read_eq miso loc array length b, hu]
  refine ⟨rfl, fun i hi => ?_, fun i hi => ?_, rfl, ?_⟩
  · simp [Nat.lt_succ_of_le hi]
  · have : ¬ i < length + 1 := by omega
    simp [this]
  · rw [transactions_readEvents]
    simp [READ, addrBytes, and_255]

/-- C7 at `read(0x123456, array, 3)` on the empty bus, the chip answering `100, 101, ...`:
four zero bytes are clocked out after the address. -/
theorem read_transfers_length_plus_one_witness :
    (read (fun n => n + 100) 0x123456 (fun _ => 0) 3 Bus.init).2.trace =
      [Event.cs false, Event.xfer 3 100, Event.xfer 0x12 101, Event.xfer 0x34 102,
       Event.xfer 0x56 103, Event.xfer 0 104, Event.xfer 0 105, Event.xfer 0 106,
       Event.xfer 0 107, Event.cs true] :=
  (read_transfers_length_plus_one (fun n => n + 100) 0x123456 (fun _ => 0) 3 Bus.init
    (by decide)).1

theorem cmdAddr_addrBytes (op a : Nat) (rest : List Nat) :
    cmdAddr (op :: (addrBytes a ++ rest)) = a % 2 ^ 24 := by
  simp only [cmdAddr, addrBytes, and_255, Nat.shiftRight_eq_div_pow, List.cons_append,
    List.getD_cons_succ, List.getD_cons_zero]
  omega

theorem addrBytes_eq_and (a : Nat) :
    addrBytes a = [(a >>> 16) &&& 0xFF, (a >>> 8) &&& 0xFF, a &&& 0xFF] := by
  simp only [addrBytes, and_255, Nat.mod_mod]

/-- C8: the three address bytes of every address-taking command are
`(addr >> 16) & 0xFF`, `(addr >> 8) & 0xFF`, `addr & 0xFF`, most significant first, and
so encode `addr mod 2^24` (which is `addr` when `addr < 2^24`).  On a responsive chip
`erase_4k` and `erase_64k` send `0x20` followed by these bytes for `loc`; `read` sends
`0x03` followed by them; and the page-program commands of `write` are, in order, `0x02`
followed by these bytes for the address `locb` (or `page1_loc`, `page2_loc`, `loc`) of
each step of `codePlan`, then that step's data.  When `length + 257 < 2^32` these steps
are those of the closed form `writePlan`. -/
theorem address_bytes_most_significant_first (miso : Nat → Nat) (h : Responsive miso)
    (loc length : Nat) (array : Nat → Nat) (b : Bus) :
    (∀ a, addrBytes a = [(a >>> 16) &&& 0xFF, (a >>> 8) &&& 0xFF, a &&& 0xFF]) ∧
    (∀ op a rest, cmdAddr (op :: (addrBytes a ++ rest)) = a % 2 ^ 24) ∧
    (∀ op a rest, a < 2 ^ 24 → cmdAddr (op :: (addrBytes a ++ rest)) = a) ∧
    Emits (fun fuel => erase_4k miso fuel loc b) b (fun l => ∃ n1 n2 n3, transactions l =
      List.replicate (n1 + 1) [RDSR, 0] ++ ([WREN] :: (List.replicate (n2 + 1) [RDSR, 0] ++
        ((0x20 :: addrBytes loc) :: List.replicate (n3 + 1) [RDSR, 0])))) ∧
    Emits (fun fuel => erase_64k miso fuel loc b) b (fun l => ∃ n1 n2 n3, transactions l =
      List.replicate (n1 + 1) [RDSR, 0] ++ ([WREN] :: (List.replicate (n2 + 1) [RDSR, 0] ++
        ((0x20 :: addrBytes loc) :: List.replicate (n3 + 1) [RDSR, 0])))) ∧
    (∃ l, (read miso loc array length b).2.trace = b.trace ++ l ∧
      transactions l = [0x03 :: (addrBytes loc ++ List.replicate (uadd length 1) 0)]) ∧
    Emits (fun fuel => write miso fuel loc array length b) b (fun l =>
      ppCommands l = (codePlan loc length).map fun c =>
        0x02 :: (addrBytes c.addr ++ chunkData array c.start c.count)) ∧
    (length + 257 < W32 →
      Emits (fun fuel => write miso fuel loc array length b) b (fun l =>
        ppCommands l = (writePlan loc length).map fun c =>
          0x02 :: (addrBytes c.addr ++ chunkData array c.start c.count))) := by
  refine ⟨addrBytes_eq_and, cmdAddr_addrBytes, fun op a rest ha => ?_, ?_, ?_, ?_, ?_,
    fun hL => ?_⟩
  · rw [cmdAddr_addrBytes, Nat.mod_eq_of_lt ha]
  · exact emits_mono (emits_erase_4k h loc b) (fun l hl => transactions_guarded hl)
  · exact emits_mono (emits_erase_64k h loc b) (fun l hl => transactions_guarded hl)
  · exact ⟨readEvents miso loc (uadd length 1) b.clock, by rw [read_eq],
      transactions_readEvents miso loc _ _⟩
  · exact emits_mono (emits_write_steps h loc array length b) (fun l hl => ppCommands_steps hl)
  · exact emits_mono (emits_write h loc array length b hL) (fun l hl => ppCommands_steps hl)

theorem responsive_idle : Responsive idle := fun _ => ⟨0, rfl⟩

/-- C8 at address `0x123456` on a never-busy chip: the address bytes are
`0x12, 0x34, 0x56`, and `write(0x123456, array, 3)` frames its commands with them. -/
theorem address_bytes_most_significant_first_witness :
    addrBytes 0x123456 = [0x12, 0x34, 0x56] ∧
    Emits (fun fuel => write idle fuel 0x123456 (fun i => i) 3 Bus.init) Bus.init (fun l =>
      ppCommands l = (codePlan 0x123456 3).map fun c =>
        0x02 :: (addrBytes c.addr ++ chunkData (fun i => i) c.start c.count)) :=
  ⟨by decide,
   (address_bytes_most_significant_first idle responsive_idle 0x123456 3 (fun i => i)
    Bus.init).2.2.2.2.2.2.1⟩

/-- C9: on a chip that eventually reports not-busy whenever polled, `erase_4k(loc)`
returns, and what it emits is, in order: status polling until bit 0 is clear, the
write-enable transaction (`0x06` alone), status polling until ready, one transaction of
exactly the four bytes `0x20`, `loc >> 16`, `loc >> 8`, `loc & 0xFF` (the low address
bits as they are, and no data byte), and status polling until ready. -/
theorem erase_4k_sequence (miso : Nat → Nat) (h : Responsive miso) (loc : Nat) (b : Bus) :
    ∃ N b1 w1 e w2 fr w3, (∀ fuel, N ≤ fuel → erase_4k miso fuel loc b = some b1) ∧
      b1.trace = b.trace ++ (w1 ++ (e ++ (w2 ++ (fr ++ w3)))) ∧
      IsWait w1 ∧ IsFrame [0x06] e ∧ IsWait w2 ∧
      IsFrame [0x20, (loc >>> 16) % 256, (loc >>> 8) % 256, loc % 256] fr ∧ IsWait w3 := by
  obtain ⟨N, b1, l, hN, hl, w1, e, w2, fr, w3, rfl, hw1, he, hw2, hfr, hw3⟩ :=
    emits_erase_4k h loc b
  refine ⟨N, b1, w1, e, w2, fr, w3, hN, hl, hw1, he, hw2, ?_, hw3⟩
  simpa [SE, addrBytes, and_255] using hfr

/-- C9 at `erase_4k(0x123456)` on a never-busy chip. -/
theorem erase_4k_sequence_witness :
    ∃ N b1 w1 e w2 fr w3, (∀ fuel, N ≤ fuel → erase_4k idle fuel 0x123456 Bus.init = some b1) ∧
      b1.trace = Bus.init.trace ++ (w1 ++ (e ++ (w2 ++ (fr ++ w3)))) ∧
      IsWait w1 ∧ IsFrame [0x06] e ∧ IsWait w2 ∧
      IsFrame [0x20, (0x123456 >>> 16) % 256, (0x123456 >>> 8) % 256, 0x123456 % 256] fr ∧
      IsWait w3 :=
  erase_4k_sequence idle responsive_idle 0x123456 Bus.init

/-- C10 (fails for `write_reg`): `write_reg(8)` on a never-busy chip is the single
transaction `0x01, 0x08`; it issues no write-enable transaction and reads no status. -/
theorem write_reg_has_no_write_enable :
    transactions (write_reg idle 8 Bus.init).trace = [[WRSR, 8]] ∧
    [WREN] ∉ transactions (write_reg idle 8 Bus.init).trace ∧
    [RDSR, 0] ∉ transactions (write_reg idle 8 Bus.init).trace := by
  decide

/-- C10 (amended): on a responsive chip every mutating operation other than `write_reg`
wraps its command in write-enable and waits, and returns.  `erase_4k`, `erase_64k` and
`erase_all` emit: wait, write-enable transaction, wait, their command, wait.  `write`, for
every address and length, emits one step per page-program command and nothing else, each
step being: write-enable transaction, wait, wait, the page-program transaction, wait. -/
theorem mutating_operations_are_guarded (miso : Nat → Nat) (h : Responsive miso)
    (loc length : Nat) (array : Nat → Nat) (b : Bus) :
    Emits (fun fuel => erase_4k miso fuel loc b) b (IsGuarded (SE :: addrBytes loc)) ∧
    Emits (fun fuel => erase_64k miso fuel loc b) b (IsGuarded (BE :: addrBytes loc)) ∧
    Emits (fun fuel => erase_all miso fuel b) b (IsGuarded [CE]) ∧
    Emits (fun fuel => write miso fuel loc array length b) b
      (IsSteps array (codePlan loc length)) :=
  ⟨emits_erase_4k h loc b, emits_erase_64k h loc b, emits_erase_all h b,
   emits_write_steps h loc array length b⟩

/-- C10 (amended) at address 4096 and a 300-byte write on a never-busy chip. -/
theorem mutating_operations_are_guarded_witness :
    Emits (fun fuel => erase_4k idle fuel 4096 Bus.init) Bus.init
      (IsGuarded (SE :: addrBytes 4096)) ∧
    Emits (fun fuel => erase_64k idle fuel 4096 Bus.init) Bus.init
      (IsGuarded (BE :: addrBytes 4096)) ∧
    Emits (fun fuel => erase_all idle fuel Bus.init) Bus.init (IsGuarded [CE]) ∧
    Emits (fun fuel => write idle fuel 4096 (fun i => i) 300 Bus.init) Bus.init
      (IsSteps (fun i => i) (codePlan 4096 300)) :=
  mutating_operations_are_guarded idle responsive_idle 4096 300 (fun i => i) Bus.init

/-! ## The page-write splitter at concrete requests -/

/-- C1 (as the code behaves): `write(0, buf, 256)` on a never-busy chip issues two
page-program commands; the first starts at offset 0 of its page and clocks out 257
data bytes, so offset plus byte count is 257 and the command runs past the page end. -/
theorem write_256_first_command_crosses_page :
    (write idle 0 0 (fun _ => 0) 256 Bus.init).map (fun b => ppSummary b.trace) =
      some [(0, 257), (256, 256)] := by
  decide!

/-- C2 (as the code behaves): `write(300, buf, 400)` on a never-busy chip issues three
page-program commands, at 300, 512 and 768, that clock out 213, 256 and 145 data bytes:
614 bytes in all rather than 400, and their concatenation is not `buf[0..400)`. -/
theorem write_300_400_clocks_out_614_bytes :
    (write idle 0 300 (fun i => i % 251) 400 Bus.init).map
        (fun b => (ppSummary b.trace, (ppData b.trace).length,
          decide (ppData b.trace = (List.range 400).map (fun i => i % 251)))) =
      some ([(300, 213), (512, 256), (768, 145)], 614, false) := by
  decide!

/-- C3 (as the code behaves): `write(0, buf, 10)` on a never-busy chip issues a first
page-program command at address 0 that carries no data byte at all, and then a second
one at address 0 with 11 data bytes. -/
theorem write_aligned_short_issues_empty_command :
    (write idle 0 0 (fun _ => 0) 10 Bus.init).map (fun b => ppSummary b.trace) =
      some [(0, 0), (0, 11)] := by
  decide!

/-- C4 (as the code behaves): `write(256, buf, 255)`, a page-aligned write that fits its
page, issues two page-program commands at address 256 on a never-busy chip, the first
with no data and the second with 256 data bytes. -/
theorem write_aligned_fitting_issues_two_commands :
    (write idle 0 256 (fun _ => 0) 255 Bus.init).map (fun b => ppSummary b.trace) =
      some [(256, 0), (256, 256)] := by
  decide!

/-- C5 (as the code behaves): `write(200, buf, 100)`, which does not fit its page, issues
two page-program commands on a never-busy chip: 56 bytes at 200 and then, at 256,
45 bytes `buf[56..100]`, one more than the `100 - 56` bytes that remain. -/
theorem write_split_second_command_has_extra_byte :
    (write idle 0 200 (fun i => i) 100 Bus.init).map
        (fun b => (ppSummary b.trace, (ppCommands b.trace).map cmdData)) =
      some ([(200, 56), (256, 45)],
        [List.range 56, List.range' 56 45]) := by
  decide!

/-! ## Status-register write, the two erases, identification -/

/-- C11: for every byte `w`, `write_reg(w)` appends to the trace exactly chip-select low,
the opcode `0x01`, the byte `w`, chip-select high, that is the single transaction
`0x01, w`: no write-enable (`0x06`) and no status read (`0x05`) before or after. -/
theorem write_reg_is_one_bare_transaction (miso : Nat → Nat) (w : Nat) (b : Bus)
    (hw : w < 256) :
    (write_reg miso w b).trace =
      b.trace ++ [Event.cs false, Event.xfer 0x01 (miso b.clock),
        Event.xfer w (miso (b.clock + 1)), Event.cs true] ∧
    transactions [Event.cs false, Event.xfer 0x01 (miso b.clock),
        Event.xfer w (miso (b.clock + 1)), Event.cs true] = [[0x01, w]] ∧
    (write_reg miso w b).clock = b.clock + 2 := by
  refine ⟨?_, rfl, rfl⟩
  simp [write_reg, WRSR, Nat.mod_eq_of_lt hw]

/-- C11 at `write_reg(B00001000)` on the empty bus, the chip answering `0xFF`. -/
theorem write_reg_is_one_bare_transaction_witness :
    (write_reg (fun _ => 0xFF) 8 Bus.init).trace =
      [Event.cs false, Event.xfer 1 0xFF, Event.xfer 8 0xFF, Event.cs true] :=
  (write_reg_is_one_bare_transaction (fun _ => 0xFF) 8 Bus.init (by decide)).1

/-- C20: for every address, every chip and every poll budget, `erase_64k(loc)` does
exactly what `erase_4k(loc)` does: the same final bus, hence the same event trace, or
no return in both.  Both opcodes, `BE` and `SE`, are `0x20`. -/
theorem erase_64k_same_as_erase_4k (miso : Nat → Nat) (fuel loc : Nat) (b : Bus) :
    erase_64k miso fuel loc b = erase_4k miso fuel loc b ∧ BE = SE ∧ SE = 0x20 :=
  ⟨rfl, rfl, rfl⟩

theorem infoLoop_zero (fuel : Nat) : infoLoop fuel 0 = none := by
  induction fuel with
  | zero => rfl
  | succ n ih => simpa [infoLoop] using ih

theorem read_info_zero_capacity (miso : Nat → Nat) (fuel : Nat) (b : Bus)
    (hc : miso (b.clock + 3) = 0) : read_info miso fuel b = none := by
  have h : infoLoop fuel 0 = none := infoLoop_zero fuel
  simp [read_info, transfer, digitalWrite, hc, h]

/-- C13 (as the code behaves): when the capacity byte, the fourth byte received in the
identification transaction, is 0, `read_info` does not return, whatever the budget: it
stays in its `while (c == 0)` loop.  Here the chip answers `0x14` (never busy) to every
transfer but that one; with `0x14` as capacity byte too, the call returns at once. -/
theorem read_info_does_not_return_on_zero_capacity :
    (∀ fuel, read_info (fun n => if n = 3 then 0 else 0x14) fuel Bus.init = none) ∧
    (read_info (fun _ => 0x14) 0 Bus.init).isSome = true :=
  ⟨fun fuel => read_info_zero_capacity _ fuel Bus.init rfl, by decide⟩

/-! ## The short branch in closed form -/

/-- C19: for every address and every `length <= 255`, on a responsive chip, `write`
issues a single page-program command exactly when `length == 0` and the address is
page-aligned (it then carries `length + 1` bytes at `loc`); in every other case it
issues exactly two, the first at `loc` carrying `(256 - (loc & 0xFF)) mod 256` data
bytes whatever `length` is, the second at `loc` plus that count (as an `unsigned long`),
reading the buffer from that count on. -/
theorem short_write_single_path_only_for_empty_aligned (miso : Nat → Nat)
    (h : Responsive miso) (loc length : Nat) (array : Nat → Nat) (b : Bus)
    (hlen : length ≤ 255) :
    Emits (fun fuel => write miso fuel loc array length b) b (fun l =>
      ppCommands l = (shortPlan loc length).map (chunkBytes array)) ∧
    ((length = 0 ∧ loc &&& 0xFF = 0) →
      shortPlan loc length = [{ addr := loc, start := 0, count := length + 1 }]) ∧
    (¬ (length = 0 ∧ loc &&& 0xFF = 0) →
      shortPlan loc length =
        [{ addr := loc, start := 0, count := (256 - (loc &&& 0xFF)) % 256 },
         { addr := (loc + (256 - (loc &&& 0xFF)) % 256) % W32,
           start := (256 - (loc &&& 0xFF)) % 256,
           count := length + 1 - (256 - (loc &&& 0xFF)) % 256 }]) ∧
    ((shortPlan loc length).length = 1 ↔ (length = 0 ∧ loc &&& 0xFF = 0)) := by
  have hcp : codePlan loc length = shortPlan loc length := by
    simp only [codePlan, if_neg (show ¬ 255 < length by omega)]
  refine ⟨?_, fun hc => ?_, fun hc => ?_, ?_⟩
  · have := emits_write_steps h loc array length b
    rw [hcp] at this
    exact emits_mono this (fun l hl => ppCommands_steps hl)
  · rw [and_255] at hc
    have : ¬ (loc % 256 ≠ 0 ∨ loc % 256 < length) := by omega
    simp only [shortPlan, if_neg this]
  · rw [and_255] at hc ⊢
    have : loc % 256 ≠ 0 ∨ loc % 256 < length := by omega
    simp only [shortPlan, if_pos this]
  · rw [and_255]
    by_cases hc : loc % 256 ≠ 0 ∨ loc % 256 < length
    · have hn : ¬ (length = 0 ∧ loc % 256 = 0) := by omega
      simp only [shortPlan, if_pos hc, List.length_cons, List.length_nil]
      exact ⟨fun h1 => absurd h1 (by decide), fun h1 => absurd h1 hn⟩
    · have hn : length = 0 ∧ loc % 256 = 0 := by omega
      simp only [shortPlan, if_neg hc, List.length_cons, List.length_nil]
      exact ⟨fun _ => hn, fun _ => trivial⟩

/-- C19 at `write(120, buf, 10)` on a never-busy chip: two commands, 136 bytes at 120
and none at 256. -/
theorem short_write_single_path_only_for_empty_aligned_witness :
    shortPlan 120 10 =
      [{ addr := 120, start := 0, count := 136 }, { addr := 256, start := 136, count := 0 }] ∧
    ((shortPlan 120 10).length = 1 ↔ (10 = 0 ∧ 120 &&& 0xFF = 0)) :=
  ⟨by decide,
   (short_write_single_path_only_for_empty_aligned idle responsive_idle 120 10 (fun i => i)
    Bus.init (by decide)).2.2.2⟩

/-! ## The steps of a write -/

theorem isSteps_parts {array : Nat → Nat} {plan : List Chunk} {l : List Event}
    (h : IsSteps array plan l) :
    ∃ parts : List (List Event), l = parts.flatten ∧
      List.Forall₂ (fun c p => IsPPStep array c p) plan parts := by
  induction h with
  | nil => exact ⟨[], rfl, List.Forall₂.nil⟩
  | cons c cs l1 l2 h1 _ ih =>
    obtain ⟨parts, rfl, hp⟩ := ih
    exact ⟨l1 :: parts, by simp, List.Forall₂.cons h1 hp⟩

/-- C16: on a responsive chip, for every address and every length (both regimes), what
`write` emits splits into one part per page-program command, and each part is, in this
order: the write-enable transaction (`0x06` alone), the wait for ready that ends
`write_enable`, the wait for ready that follows it, then chip-select low, `0x02`, the
three address bytes, the chunk's data bytes, chip-select high, and a wait for ready.
Every part has its own write-enable and its own waits. -/
theorem each_program_step_is_enable_wait_program_wait (miso : Nat → Nat)
    (h : Responsive miso) (loc length : Nat) (array : Nat → Nat) (b : Bus) :
    Emits (fun fuel => write miso fuel loc array length b) b (fun l =>
      ∃ parts : List (List Event), l = parts.flatten ∧
        List.Forall₂ (fun c p => ∃ e w1 w2 fr w3,
            p = e ++ (w1 ++ (w2 ++ (fr ++ w3))) ∧ IsFrame [0x06] e ∧ IsWait w1 ∧ IsWait w2 ∧
            IsFrame (0x02 :: (addrBytes c.addr ++ chunkData array c.start c.count)) fr ∧
            IsWait w3)
          (codePlan loc length) parts) :=
  emits_mono (emits_write_steps h loc array length b) (fun _ hl => isSteps_parts hl)

/-- C16 at `write(300, buf, 400)` on a never-busy chip. -/
theorem each_program_step_is_enable_wait_program_wait_witness :
    Emits (fun fuel => write idle fuel 300 (fun i => i) 400 Bus.init) Bus.init (fun l =>
      ∃ parts : List (List Event), l = parts.flatten ∧
        List.Forall₂ (fun c p => ∃ e w1 w2 fr w3,
            p = e ++ (w1 ++ (w2 ++ (fr ++ w3))) ∧ IsFrame [0x06] e ∧ IsWait w1 ∧ IsWait w2 ∧
            IsFrame (0x02 :: (addrBytes c.addr ++ chunkData (fun i => i) c.start c.count)) fr ∧
            IsWait w3)
          (codePlan 300 400) parts) :=
  each_program_step_is_enable_wait_program_wait idle responsive_idle 300 400 (fun i => i)
    Bus.init

/-! ## Page bounds of the commands after the first -/

theorem uadd_mod_256 (a b : Nat) : uadd a b % 256 = (a + b) % 256 := by
  unfold uadd W32; omega

theorem loop_count_le (x y : Nat) : uadd (uadd x y) 1 - y ≤ x + 1 := by
  unfold uadd W32; omega

theorem loopPlan_aligned (loc reps rem : Nat) (hr : reps + 2 < W32) (hreps : 1 ≤ reps)
    (hrem : rem ≤ 255) :
    ∀ (n i : Nat) (v : WVars), 1 ≤ i → (v.first_length + loc) % 256 = 0 →
      (2 ≤ i → v.locb % 256 = 0) →
      ∀ c ∈ loopPlan loc reps rem n i v, c.addr % 256 = 0 ∧ c.count ≤ 256 := by
  have h2 : uadd reps 2 = reps + 2 := by unfold uadd; exact Nat.mod_eq_of_lt hr
  have h1 : uadd reps 1 = reps + 1 := by unfold uadd; exact Nat.mod_eq_of_lt (by omega)
  intro n
  induction n with
  | zero => intro i v _ _ _ c hc; simp [loopPlan] at hc
  | succ n ih =>
    intro i v hi hA hB c hc
    have hI : loopI i v = i := by
      unfold loopI; rw [if_neg (by omega)]
    rw [loopPlan] at hc
    by_cases hlt : i < uadd reps 2
    · rw [if_pos hlt] at hc
      by_cases hbrk : loopI i v = uadd reps 1 ∧ rem = 0
      · rw [if_pos hbrk] at hc; simp at hc
      · rw [if_neg hbrk] at hc
        by_cases hmid : 0 < i ∧ i < uadd reps 1
        · have hV : loopV loc reps rem i v =
              { v with
                locb := uadd (uadd v.first_length loc) (umul 256 (i - 1))
                array_count := uadd v.first_length (umul 256 (i - 1))
                length1 := 255 } := by
            unfold loopV
            rw [hI]
            simp only [if_neg (show ¬ i = 0 by omega), if_pos hmid,
              if_neg (show ¬ i = uadd reps 1 by omega)]
          have hlocb : (loopV loc reps rem i v).locb % 256 = 0 := by
            rw [hV]
            show uadd (uadd v.first_length loc) (umul 256 (i - 1)) % 256 = 0
            rw [uadd_mod_256]
            unfold uadd umul W32
            omega
          rcases List.mem_cons.mp hc with rfl | hc'
          · refine ⟨hlocb, ?_⟩
            show uadd (uadd (loopV loc reps rem i v).length1
              (loopV loc reps rem i v).array_count) 1 -
                (loopV loc reps rem i v).array_count ≤ 256
            rw [hV]
            exact loop_count_le 255 _
          · rw [hI] at hc'
            exact ih (i + 1) _ (by omega) (by rw [hV]; exact hA) (fun _ => hlocb) c hc'
        · have hlast : i = uadd reps 1 := by omega
          have hV : loopV loc reps rem i v =
              { v with
                locb := uadd v.locb 256
                array_count := uadd v.array_count 256
                length1 := rem } := by
            unfold loopV
            rw [hI]
            simp only [if_neg (show ¬ i = 0 by omega), if_neg hmid, if_pos hlast]
          rcases List.mem_cons.mp hc with rfl | hc'
          · refine ⟨?_, ?_⟩
            · show (loopV loc reps rem i v).locb % 256 = 0
              rw [hV]
              show uadd v.locb 256 % 256 = 0
              rw [uadd_mod_256]
              have := hB (by omega)
              omega
            · show uadd (uadd (loopV loc reps rem i v).length1
                (loopV loc reps rem i v).array_count) 1 -
                  (loopV loc reps rem i v).array_count ≤ 256
              rw [hV]
              exact le_trans (loop_count_le rem _) (by omega)
          · rw [hI] at hc'
            cases n with
            | zero => simp [loopPlan] at hc'
            | succ m =>
              rw [loopPlan, if_neg (by omega)] at hc'
              simp at hc'
    · rw [if_neg hlt] at hc; simp at hc

theorem codePlan_long_tail (loc length : Nat) (hlen : 255 < length) (h32 : length < W32) :
    ∀ c ∈ (codePlan loc length).tail, c.addr % 256 = 0 ∧ c.count ≤ 256 := by
  have hreps : length >>> 8 = length / 256 := Nat.shiftRight_eq_div_pow length 8
  have hrem : usub length (umul 256 (length / 256)) = length % 256 := by
    unfold usub umul; unfold W32 at *; omega
  have hr : length / 256 + 2 < W32 := by unfold W32 at *; omega
  have h2 : uadd (length / 256) 2 = length / 256 + 2 := by
    unfold uadd; exact Nat.mod_eq_of_lt hr
  have h1 : uadd (length / 256) 1 = length / 256 + 1 := by
    unfold uadd; exact Nat.mod_eq_of_lt (by omega)
  have hne : usub 256 (loc &&& 0xff) ≠ 0 := by
    rw [usub_first]; omega
  have hI : loopI 0 { locb := loc, length1 := 0, array_count := 0, first_length := 0 } = 0 := by
    unfold loopI
    simp only [if_true, if_neg hne]
  have hV : (loopV loc (length / 256) (length % 256) 0
      { locb := loc, length1 := 0, array_count := 0, first_length := 0 }).first_length =
        256 - loc % 256 := by
    unfold loopV
    rw [hI]
    simp only [if_true, if_neg (show ¬ (0 < 0 ∧ 0 < uadd (length / 256) 1) by omega),
      if_neg (show ¬ 0 = uadd (length / 256) 1 by omega)]
    exact usub_first loc
  simp only [codePlan, if_pos hlen, hreps, hrem]
  rw [loopPlan, if_pos (by omega), if_neg (by rw [hI]; omega), List.tail_cons, hI]
  exact loopPlan_aligned loc (length / 256) (length % 256) hr (by omega) (by omega)
    (length / 256 + 1) 1 _ (le_refl 1) (by rw [hV]; omega) (fun h => absurd h (by decide))

theorem shortPlan_in_page (loc length : Nat) (hlen : length ≤ 255) :
    ∀ c ∈ shortPlan loc length, c.addr % 256 + c.count ≤ 256 := by
  intro c hc
  unfold shortPlan at hc
  by_cases hcond : loc % 256 ≠ 0 ∨ loc % 256 < length
  · rw [if_pos hcond] at hc
    simp only [List.mem_cons, List.mem_singleton, List.not_mem_nil, or_false] at hc
    rcases hc with rfl | rfl
    · show loc % 256 + (256 - loc % 256) % 256 ≤ 256
      omega
    · show (loc + (256 - loc % 256) % 256) % W32 % 256 +
          (length + 1 - (256 - loc % 256) % 256) ≤ 256
      unfold W32
      omega
  · rw [if_neg hcond] at hc
    simp only [List.mem_singleton] at hc
    subst hc
    show loc % 256 + (length + 1) ≤ 256
    omega

theorem chunkBytes_offset_count (array : Nat → Nat) (c : Chunk) :
    cmdAddr (chunkBytes array c) % 256 = c.addr % 256 ∧
      (cmdData (chunkBytes array c)).length = c.count := by
  refine ⟨?_, ?_⟩
  · unfold chunkBytes
    rw [cmdAddr_addrBytes]
    omega
  · simp [cmdData, chunkBytes, addrBytes, chunkData]

/-- C18: for every address and every length (an `unsigned long`), on a responsive chip,
the page-program commands of `write` are those of `codePlan`, each carrying the address
and data-byte count of its chunk, and: when `length <= 255` every command has
page offset plus byte count at most 256; when `length > 255` every command after the
first starts at a 256-aligned address and carries at most 256 data bytes. -/
theorem commands_after_first_stay_in_page (miso : Nat → Nat) (h : Responsive miso)
    (loc length : Nat) (array : Nat → Nat) (b : Bus) (h32 : length < W32) :
    Emits (fun fuel => write miso fuel loc array length b) b (fun l =>
      ppCommands l = (codePlan loc length).map (chunkBytes array)) ∧
    (∀ c : Chunk, cmdAddr (chunkBytes array c) % 256 = c.addr % 256 ∧
      (cmdData (chunkBytes array c)).length = c.count) ∧
    (length ≤ 255 → ∀ c ∈ codePlan loc length, c.addr % 256 + c.count ≤ 256) ∧
    (255 < length → ∀ c ∈ (codePlan loc length).tail, c.addr % 256 = 0 ∧ c.count ≤ 256) := by
  refine ⟨?_, chunkBytes_offset_count array, fun hlen => ?_, fun hlen => ?_⟩
  · exact emits_mono (emits_write_steps h loc array length b) (fun l hl => ppCommands_steps hl)
  · simp only [codePlan, if_neg (show ¬ 255 < length by omega)]
    exact shortPlan_in_page loc length hlen
  · exact codePlan_long_tail loc length hlen h32

/-- C18 at `write(300, buf, 400)`: the commands after the first are at 512 and 768,
with 256 and 145 data bytes. -/
theorem commands_after_first_stay_in_page_witness :
    (codePlan 300 400).tail =
      [{ addr := 512, start := 212, count := 256 }, { addr := 768, start := 468, count := 145 }] ∧
    (∀ c ∈ (codePlan 300 400).tail, c.addr % 256 = 0 ∧ c.count ≤ 256) :=
  ⟨by decide,
   (commands_after_first_stay_in_page idle responsive_idle 300 400 (fun i => i) Bus.init
    (by decide)).2.2.2 (by decide)⟩

/-! ## Byte counts of the data loops -/

/-- C17 (fails for the first command of the two-command short path):
`write(240, buf, 50)` on a never-busy chip computes `length1 = 256 - 240 = 16` for its
first command and clocks out exactly the 16 bytes `buf[0..15]`, not 17; the second
command then carries `buf[16..50]`. -/
theorem first_short_command_has_no_extra_byte :
    (write idle 0 240 (fun i => i) 50 Bus.init).map
        (fun b => (ppCommands b.trace).map cmdData) =
      some [List.range 16, List.range' 16 35] ∧
    (256 - (240 &&& 0xff) % 256) % 256 = 16 := by
  decide!

/-- C17 (amended): on a responsive chip, for `length + 257 < 2^32`, the page-program
commands of `write` are those of `writePlan`, and each data loop but one clocks out one
byte more than the length computed for its command.  Long regime: the first command
`256 - (loc & 0xFF) + 1` bytes, each full-page command `255 + 1`, the final command
`remainder + 1`, each starting at its `array_count`.  Short regime: the single command
`length + 1` bytes from index 0, and the second command of the two-command path the
bytes `buf[length1..length]`.  The exception is the first command of the two-command
path, which clocks out exactly `length1 = (256 - (loc & 0xFF)) mod 256` bytes. -/
theorem data_loops_send_one_extra_byte (miso : Nat → Nat) (h : Responsive miso)
    (loc length : Nat) (array : Nat → Nat) (b : Bus) (hL : length + 257 < W32) :
    Emits (fun fuel => write miso fuel loc array length b) b (fun l =>
      ppCommands l = (writePlan loc length).map (chunkBytes array)) ∧
    (255 < length → writePlan loc length =
      { addr := loc, start := 0, count := 256 - loc % 256 + 1 } ::
        ((List.range (length / 256)).map (fun j =>
            { addr := (256 - loc % 256 + loc + 256 * j) % W32,
              start := 256 - loc % 256 + 256 * j, count := 255 + 1 }) ++
          (if length % 256 = 0 then []
           else [{ addr := (256 - loc % 256 + loc + 256 * (length / 256)) % W32,
                   start := 256 - loc % 256 + 256 * (length / 256),
                   count := length % 256 + 1 }]))) ∧
    (length ≤ 255 → (length = 0 ∧ loc % 256 = 0) →
      writePlan loc length = [{ addr := loc, start := 0, count := length + 1 }]) ∧
    (length ≤ 255 → ¬ (length = 0 ∧ loc % 256 = 0) →
      writePlan loc length =
        [{ addr := loc, start := 0, count := (256 - loc % 256) % 256 },
         { addr := (loc + (256 - loc % 256) % 256) % W32,
           start := (256 - loc % 256) % 256,
           count := length + 1 - (256 - loc % 256) % 256 }]) := by
  refine ⟨?_, fun hlen => ?_, fun hlen hc => ?_, fun hlen hc => ?_⟩
  · exact emits_mono (emits_write h loc array length b hL) (fun l hl => ppCommands_steps hl)
  · simp only [writePlan, if_pos hlen, longPlan, middlePlan, finalPlan]
    rfl
  · have : ¬ (loc % 256 ≠ 0 ∨ loc % 256 < length) := by omega
    simp only [writePlan, if_neg (show ¬ 255 < length by omega), shortPlan, if_neg this]
  · have : loc % 256 ≠ 0 ∨ loc % 256 < length := by omega
    simp only [writePlan, if_neg (show ¬ 255 < length by omega), shortPlan, if_pos this]

/-- C17 (amended) at `write(300, buf, 400)` on a never-busy chip: 212 + 1, 255 + 1 and
144 + 1 data bytes. -/
theorem data_loops_send_one_extra_byte_witness :
    writePlan 300 400 =
      { addr := 300, start := 0, count := 212 + 1 } ::
        ((List.range 1).map (fun j =>
            { addr := (212 + 300 + 256 * j) % W32, start := 212 + 256 * j, count := 255 + 1 }) ++
          [{ addr := 768, start := 468, count := 144 + 1 }]) :=
  (data_loops_send_one_extra_byte idle responsive_idle 300 400 (fun i => i) Bus.init
    (by decide)).2.1 (by decide)

/-! ## Chip-select discipline -/

theorem csOk_append : ∀ (l1 l2 : List Event) (o : Option Nat),
    csOk o l1 = true → csOk o (l1 ++ l2) = csOk none l2
  | [], l2, none, _ => rfl
  | [], _, some _, h => by simp [csOk] at h
  | Event.cs false :: es, l2, none, h => by
    have h' : csOk (some 0) es = true := h
    show csOk (some 0) (es ++ l2) = csOk none l2
    exact csOk_append es l2 _ h'
  | Event.cs false :: _, _, some _, h => by simp [csOk] at h
  | Event.cs true :: _, _, none, h => by simp [csOk] at h
  | Event.cs true :: es, l2, some n, h => by
    have h' : (decide (0 < n) && csOk none es) = true := h
    rw [Bool.and_eq_true] at h'
    show (decide (0 < n) && csOk none (es ++ l2)) = csOk none l2
    rw [h'.1, csOk_append es l2 none h'.2]
    rfl
  | Event.xfer _ _ :: _, _, none, h => by simp [csOk] at h
  | Event.xfer o m :: es, l2, some n, h => by
    have h' : ((decide (0 < n) || decide (o ∈ opcodes)) && csOk (some (n + 1)) es) = true := h
    rw [Bool.and_eq_true] at h'
    show ((decide (0 < n) || decide (o ∈ opcodes)) && csOk (some (n + 1)) (es ++ l2)) =
      csOk none l2
    rw [h'.1, csOk_append es l2 _ h'.2]
    rfl

theorem csOk_xfers : ∀ (bytes ms : List Nat) (n : Nat), ms.length = bytes.length → 0 < n →
    csOk (some n) (List.zipWith Event.xfer bytes ms ++ [Event.cs true]) = true
  | [], ms, n, _, hn => by simp [csOk, hn]
  | x :: bytes, [], n, h, _ => by simp at h
  | x :: bytes, m :: ms, n, h, hn => by
    have h' : ms.length = bytes.length := by simpa using h
    simp only [List.zipWith_cons_cons, List.cons_append, csOk, Bool.and_eq_true]
    exact ⟨by simp [hn], csOk_xfers bytes ms (n + 1) h' (Nat.succ_pos n)⟩

theorem csOk_frame {op : Nat} {rest : List Nat} {fr : List Event}
    (h : IsFrame (op :: rest) fr) (hop : op ∈ opcodes) : csOk none fr = true := by
  obtain ⟨ms, hlen, rfl⟩ := h
  cases ms with
  | nil => simp at hlen
  | cons m ms =>
    have h' : ms.length = rest.length := by simpa using hlen
    simp only [List.zipWith_cons_cons, List.cons_append, csOk, Bool.and_eq_true]
    exact ⟨by simp [hop], csOk_xfers rest ms 1 h' Nat.one_pos⟩

theorem disciplined_refl (b : Bus) : Disciplined b b := ⟨[], by simp, rfl⟩

theorem disciplined_trans {b b1 b2 : Bus} (h1 : Disciplined b b1) (h2 : Disciplined b1 b2) :
    Disciplined b b2 := by
  obtain ⟨l1, e1, c1⟩ := h1
  obtain ⟨l2, e2, c2⟩ := h2
  exact ⟨l1 ++ l2, by rw [e2, e1, List.append_assoc], by rw [csOk_append l1 l2 none c1]; exact c2⟩

theorem disciplined_frame {b b1 : Bus} (op : Nat) (rest : List Nat) (fr : List Event)
    (ht : b1.trace = b.trace ++ fr) (h : IsFrame (op :: rest) fr) (hop : op ∈ opcodes) :
    Disciplined b b1 :=
  ⟨fr, ht, csOk_frame h hop⟩

theorem disciplined_stat (miso : Nat → Nat) (b : Bus) : Disciplined b (stat miso b).2 :=
  disciplined_frame RDSR [0] _ (by rw [stat_snd]) (isFrame_poll _ _) (by decide)

theorem disciplined_waitLoop (miso : Nat → Nat) :
    ∀ (fuel s : Nat) (b b1 : Bus), waitLoop miso fuel s b = some b1 → Disciplined b b1
  | 0, s, b, b1, h => by
    unfold waitLoop at h
    split at h
    · exact absurd h (by simp)
    · cases h; exact disciplined_refl b
  | fuel + 1, s, b, b1, h => by
    unfold waitLoop at h
    split at h
    · exact disciplined_trans (disciplined_stat miso b) (disciplined_waitLoop miso fuel _ _ _ h)
    · cases h; exact disciplined_refl b

theorem disciplined_waitforit (miso : Nat → Nat) (fuel : Nat) (b b1 : Bus)
    (h : waitforit miso fuel b = some b1) : Disciplined b b1 :=
  disciplined_trans (disciplined_stat miso b) (disciplined_waitLoop miso fuel _ _ _ h)

theorem disciplined_write_enable (miso : Nat → Nat) (fuel : Nat) (b b1 : Bus)
    (h : write_enable miso fuel b = some b1) : Disciplined b b1 := by
  refine disciplined_trans ?_ (disciplined_waitforit miso fuel _ _ h)
  exact disciplined_frame WREN [] [Event.cs false, Event.xfer WREN (miso b.clock), Event.cs true]
    (by simp [WREN]) (isFrame_wren _) (by decide)

theorem disciplined_guarded (miso : Nat → Nat) (fuel : Nat) (p : Bus → Bus)
    (hp : ∀ b, Disciplined b (p b)) (b b1 : Bus)
    (h : ((waitforit miso fuel b).bind fun b =>
        (write_enable miso fuel b).bind fun b => waitforit miso fuel (p b)) = some b1) :
    Disciplined b b1 := by
  obtain ⟨b2, h2, h⟩ := Option.bind_eq_some.mp h
  obtain ⟨b3, h3, h⟩ := Option.bind_eq_some.mp h
  exact disciplined_trans (disciplined_waitforit miso fuel _ _ h2)
    (disciplined_trans (disciplined_write_enable miso fuel _ _ h3)
      (disciplined_trans (hp b3) (disciplined_waitforit miso fuel _ _ h)))

theorem disciplined_addr_frame (miso : Nat → Nat) (op loc : Nat) (hop : op < 256)
    (hmem : op ∈ opcodes) (b : Bus) :
    Disciplined b (digitalWrite true (transfer miso (loc &&& 0xFF) (transfer miso (loc >>> 8)
      (transfer miso (loc >>> 16) (transfer miso op (digitalWrite false b)).2).2).2).2) := by
  obtain ⟨fr, ht, hF⟩ := addr_frame miso op loc b hop
  exact disciplined_frame op (addrBytes loc) fr ht hF hmem

theorem disciplined_erase_4k (miso : Nat → Nat) (fuel loc : Nat) (b b1 : Bus)
    (h : erase_4k miso fuel loc b = some b1) : Disciplined b b1 :=
  disciplined_guarded miso fuel _
    (fun b => disciplined_addr_frame miso 0x20 loc (by decide) (by decide) b) b b1 h

theorem disciplined_erase_all (miso : Nat → Nat) (fuel : Nat) (b b1 : Bus)
    (h : erase_all miso fuel b = some b1) : Disciplined b b1 :=
  disciplined_guarded miso fuel
    (fun b => digitalWrite true (transfer miso CE (digitalWrite false b)).2)
    (fun b => disciplined_frame CE []
      [Event.cs false, Event.xfer CE (miso b.clock), Event.cs true]
      (by simp [CE]) ⟨[miso b.clock], rfl, rfl⟩ (by decide)) b b1 h

theorem disciplined_read (miso : Nat → Nat) (loc : Nat) (array : Nat → Nat) (length : Nat)
    (b : Bus) : Disciplined b (read miso loc array length b).2 :=
  disciplined_frame READ _ _ (by rw [read_eq]) (isFrame_readEvents miso loc _ _) (by decide)

theorem disciplined_write_reg (miso : Nat → Nat) (w : Nat) (b : Bus) :
    Disciplined b (write_reg miso w b) :=
  disciplined_frame WRSR [w % 256]
    [Event.cs false, Event.xfer WRSR (miso b.clock),
      Event.xfer (w % 256) (miso (b.clock + 1)), Event.cs true]
    (by simp [write_reg, WRSR]) ⟨[miso b.clock, miso (b.clock + 1)], rfl, rfl⟩ (by decide)

theorem disciplined_read_info (miso : Nat → Nat) (fuel : Nat) (b b1 : Bus)
    (h : read_info miso fuel b = some b1) : Disciplined b b1 := by
  unfold read_info at h
  obtain ⟨_, _, h⟩ := Option.bind_eq_some.mp h
  refine disciplined_trans ?_ (disciplined_waitforit miso fuel _ _ h)
  exact disciplined_frame RDID [0, 0, 0]
    [Event.cs false, Event.xfer RDID (miso b.clock), Event.xfer 0 (miso (b.clock + 1)),
      Event.xfer 0 (miso (b.clock + 2)), Event.xfer 0 (miso (b.clock + 3)), Event.cs true]
    (by simp [RDID])
    ⟨[miso b.clock, miso (b.clock + 1), miso (b.clock + 2), miso (b.clock + 3)], rfl, rfl⟩
    (by decide)

theorem disciplined_ppFrame (miso : Nat → Nat) (array : Nat → Nat) (addr n start : Nat)
    (b : Bus) : Disciplined b (ppFrame miso array addr n start b) := by
  obtain ⟨fr, ht, hF⟩ := ppFrame_trace miso array addr n start b
  exact disciplined_frame PP _ fr ht hF (by decide)

theorem disciplined_ppStep (miso : Nat → Nat) (fuel : Nat) (array : Nat → Nat)
    (addr n start : Nat) (k : Bus → Option Bus) (b b1 : Bus)
    (hk : ∀ b2 b3, k b2 = some b3 → Disciplined b2 b3)
    (h : ((write_enable miso fuel b).bind fun b =>
        (waitforit miso fuel b).bind fun b =>
        (waitforit miso fuel (ppFrame miso array addr n start b)).bind k) = some b1) :
    Disciplined b b1 := by
  obtain ⟨b2, h2, h⟩ := Option.bind_eq_some.mp h
  obtain ⟨b3, h3, h⟩ := Option.bind_eq_some.mp h
  obtain ⟨b4, h4, h⟩ := Option.bind_eq_some.mp h
  exact disciplined_trans (disciplined_write_enable miso fuel _ _ h2)
    (disciplined_trans (disciplined_waitforit miso fuel _ _ h3)
      (disciplined_trans (disciplined_ppFrame miso array addr n start b3)
        (disciplined_trans (disciplined_waitforit miso fuel _ _ h4) (hk b4 b1 h))))

theorem disciplined_ppStep_last (miso : Nat → Nat) (fuel : Nat) (array : Nat → Nat)
    (addr n start : Nat) (b b1 : Bus)
    (h : ((write_enable miso fuel b).bind fun b =>
        (waitforit miso fuel b).bind fun b =>
        waitforit miso fuel (ppFrame miso array addr n start b)) = some b1) :
    Disciplined b b1 := by
  obtain ⟨b2, h2, h⟩ := Option.bind_eq_some.mp h
  obtain ⟨b3, h3, h⟩ := Option.bind_eq_some.mp h
  exact disciplined_trans (disciplined_write_enable miso fuel _ _ h2)
    (disciplined_trans (disciplined_waitforit miso fuel _ _ h3)
      (disciplined_trans (disciplined_ppFrame miso array addr n start b3)
        (disciplined_waitforit miso fuel _ _ h)))

theorem disciplined_writeShort (miso : Nat → Nat) (fuel loc : Nat) (array : Nat → Nat)
    (length : Nat) (b b1 : Bus) (h : writeShort miso fuel loc array length b = some b1) :
    Disciplined b b1 := by
  unfold writeShort at h
  split at h
  · exact disciplined_ppStep miso fuel array loc ((256 - (loc &&& 0xff) % 256) % 256) 0
      (fun b => (write_enable miso fuel b).bind fun b =>
        (waitforit miso fuel b).bind fun b =>
        waitforit miso fuel (ppFrame miso array (uadd loc ((256 - (loc &&& 0xff) % 256) % 256))
          (uadd length 1 - (256 - (loc &&& 0xff) % 256) % 256)
          ((256 - (loc &&& 0xff) % 256) % 256) b)) b b1
      (fun b2 b3 h' => disciplined_ppStep_last miso fuel array _ _ _ b2 b3 h') h
  · exact disciplined_ppStep_last miso fuel array loc (uadd length 1) 0 b b1 h

theorem disciplined_writeLoop (miso : Nat → Nat) (fuel loc : Nat) (array : Nat → Nat)
    (reps rem : Nat) :
    ∀ (n i : Nat) (v : WVars) (b b1 : Bus),
      writeLoop miso fuel loc array reps rem n i v b = some b1 → Disciplined b b1 := by
  intro n
  induction n with
  | zero =>
    intro i v b b1 h
    unfold writeLoop at h
    split at h
    · exact absurd h (by simp)
    · cases h; exact disciplined_refl b
  | succ n ih =>
    intro i v b b1 h
    rw [writeLoop_succ] at h
    split at h
    · split at h
      · cases h; exact disciplined_refl b
      · exact disciplined_ppStep miso fuel array _ _ _
          (fun b => writeLoop miso fuel loc array reps rem n (loopI i v + 1)
            (loopV loc reps rem i v) b) b b1 (fun b2 b3 h' => ih _ _ b2 b3 h') h
    · cases h; exact disciplined_refl b

theorem disciplined_write (miso : Nat → Nat) (fuel loc : Nat) (array : Nat → Nat)
    (length : Nat) (b b1 : Bus) (h : write miso fuel loc array length b = some b1) :
    Disciplined b b1 := by
  unfold write at h
  obtain ⟨b2, h2, h⟩ := Option.bind_eq_some.mp h
  have d1 : Disciplined b b2 := by
    split at h2
    · exact disciplined_writeLoop miso fuel loc array _ _ _ _ _ b b2 h2
    · cases h2; exact disciplined_refl _
  have d2 : Disciplined b2 b1 := by
    split at h
    · exact disciplined_writeShort miso fuel loc array length b2 b1 h
    · cases h; exact disciplined_refl _
  exact disciplined_trans d1 d2

/-- C12: every public operation, on every input on which it returns, appends to the
trace events that keep the chip-select discipline (`csOk`): chip-select goes low, high,
low, high, ..., starting low and ending high; every transfer happens while it is low;
the first byte after each select is one of the driver's opcodes; every select is
followed by at least one byte before the deselect; and the chip is deselected when the
operation returns. -/
theorem chip_select_discipline (miso : Nat → Nat) (fuel loc length w : Nat)
    (array : Nat → Nat) (b : Bus) :
    Disciplined b (stat miso b).2 ∧
    (∀ b1, waitforit miso fuel b = some b1 → Disciplined b b1) ∧
    (∀ b1, write_enable miso fuel b = some b1 → Disciplined b b1) ∧
    (∀ b1, erase_4k miso fuel loc b = some b1 → Disciplined b b1) ∧
    (∀ b1, erase_64k miso fuel loc b = some b1 → Disciplined b b1) ∧
    (∀ b1, erase_all miso fuel b = some b1 → Disciplined b b1) ∧
    Disciplined b (read miso loc array length b).2 ∧
    (∀ b1, write miso fuel loc array length b = some b1 → Disciplined b b1) ∧
    Disciplined b (write_reg miso w b) ∧
    (∀ b1, read_info miso fuel b = some b1 → Disciplined b b1) :=
  ⟨disciplined_stat miso b, disciplined_waitforit miso fuel b,
   disciplined_write_enable miso fuel b, disciplined_erase_4k miso fuel loc b,
   disciplined_erase_4k miso fuel loc b, disciplined_erase_all miso fuel b,
   disciplined_read miso loc array length b, disciplined_write miso fuel loc array length b,
   disciplined_write_reg miso w b, disciplined_read_info miso fuel b⟩

/-- C12 at `erase_4k(4096)` on a chip that is busy for its first two status reads. -/
theorem chip_select_discipline_witness :
    ∃ b1, erase_4k busyTwice 2 4096 Bus.init = some b1 ∧ csOk none b1.trace = true := by
  have hd := (chip_select_discipline busyTwice 2 4096 0 0 (fun _ => 0) Bus.init).2.2.2.1
  refine ⟨_, rfl, ?_⟩
  obtain ⟨l, hl, hc⟩ := hd _ rfl
  rw [hl]
  exact hc

/-! ## Long writes at concrete requests -/

/-- C14 (as the code behaves): `write(100, buf, 300)` on a never-busy chip, with
`reps = 1`, `remainder = 44` and `first = 156`, issues after its first command one
full-page command at 256 taking 256 bytes from buffer offset 156, and then a final
command at 512 that takes 45 bytes from buffer offset 412, one more than the 44 left over. -/
theorem final_long_command_has_extra_byte :
    (write idle 0 100 (fun i => i) 300 Bus.init).map (fun b => ppCommands b.trace) =
      some ([{ addr := 100, start := 0, count := 157 },
             { addr := 256, start := 156, count := 256 },
             { addr := 512, start := 412, count := 45 }].map (chunkBytes (fun i => i))) := by
  decide!

/-- C15 (as the code behaves): `write(512, buf, 300)`, a long write at a page-aligned
address, on a never-busy chip: the first step is not skipped; the first command is at
512 and carries 257 data bytes, then come 256 bytes at 768 and 45 bytes at 1024. -/
theorem aligned_long_write_first_step_not_skipped :
    (write idle 0 512 (fun i => i) 300 Bus.init).map (fun b => ppCommands b.trace) =
      some ([{ addr := 512, start := 0, count := 257 },
             { addr := 768, start := 256, count := 256 },
             { addr := 1024, start := 512, count := 45 }].map (chunkBytes (fun i => i))) := by
  decide!

end S25FLx
